import Mathlib

/-!
# Verification of the cluster-context identity and caching subsystem

This file gives a shallow embedding, in Lean 4, of the headlamp
cluster-context naming and caching subsystem:

* the authoritative server-side canonicalizer `MakeDNSFriendly`
  (Go, `backend/pkg/kubeconfig`, here `goMakeDNSFriendly`) together with its
  helpers `isAlphanumeric` and `truncateParts`;
* the client-side mirror `makeDNSFriendly`
  (TypeScript, `frontend/src/components/cluster/KubeConfigLoader.tsx`,
  here `jsMakeDNSFriendly`);
* the context store (`AddContext`, `AddContextWithKeyAndTTL`, `GetContexts`,
  `GetContext`, `UpdateTTL`) over a TTL cache, and the client stateless
  kubeconfig registry (`findAndReplaceKubeconfig`).

Strings are modelled as lists of Unicode code points (`List Nat`): Go
`strings` functions used by the source operate rune-wise (all replaced
patterns are single ASCII runes, so byte-level `strings.ReplaceAll` cannot
split a multi-byte UTF-8 rune), and every stage past the sanitizing map
works on pure-ASCII data, where Go byte indexing/slicing coincides with
rune indexing/slicing.  The helper `runes` converts a Lean string literal
to this representation.
-/

/-- Code points of a string literal, as the `List Nat` string model used
throughout this file. -/
def runes (s : String) : List Nat :=
  s.toList.map Char.toNat

/-- Go constant `MaxDNSLabelLength` (not itself under `src/`; its value 63 is
fixed by the source doc comment "Maximum 63 characters (DNS label limit)" and
by the spec). -/
def MaxDNSLabelLength : Nat := 63

/-! ## The substring replacement table

Both implementations list the same twelve pairs, in the same textual order:
`/`→`-`, space→`__`, `:`→`-`, `=`→`-eq-`, `+`→`-plus-`, `,`→`-`, `@`→`-at-`,
`\`→`-`, `(`→`-`, `)`→`-`, `*`→`-star-`, `.`→`-`.  The Go code iterates the
table as an unordered map, the client as an ordered object literal; the
order-independence of the combined effect is the subject of claim C10. -/

/-- The twelve literal substring replacements, in source textual order.
Each pattern is a single rune; each replacement is a rune string. -/
def replacements : List (Nat × List Nat) :=
  [ (47, runes "-")       -- "/"  -> "-"
  , (32, runes "__")      -- " "  -> "__"
  , (58, runes "-")       -- ":"  -> "-"
  , (61, runes "-eq-")    -- "="  -> "-eq-"
  , (43, runes "-plus-")  -- "+"  -> "-plus-"
  , (44, runes "-")       -- ","  -> "-"
  , (64, runes "-at-")    -- "@"  -> "-at-"
  , (92, runes "-")       -- "\\" -> "-"
  , (40, runes "-")       -- "("  -> "-"
  , (41, runes "-")       -- ")"  -> "-"
  , (42, runes "-star-")  -- "*"  -> "-star-"
  , (46, runes "-")       -- "."  -> "-"
  ]

/-- `strings.ReplaceAll s old new` for a single-rune pattern `old`: every
occurrence of the rune `c` is replaced by the string `r`.  (For a one-rune
pattern, replacing all non-overlapping occurrences is exactly a rune-wise
flat map.) -/
def replaceAllRune (c : Nat) (r : List Nat) (s : List Nat) : List Nat :=
  s.flatMap (fun x => if x = c then r else [x])

/-- Applying a list of single-rune replacements left to right, as the
`for old, new := range replacements` loop does for the iteration order `rs`
(and as the client's `Object.entries(replacements).forEach` does for the
fixed textual order). -/
def applyReplacements (rs : List (Nat × List Nat)) (s : List Nat) : List Nat :=
  rs.foldl (fun acc p => replaceAllRune p.1 p.2 acc) s

/-! ## The sanitizing maps -/

/-- The rune mapping of the server's `strings.Map` pass: keep `a-z`, `0-9`
and `-`, lower-case `A-Z` (Go `unicode.ToLower` on an ASCII capital adds 32),
map everything else to `-`. -/
def goMapRune (r : Nat) : Nat :=
  if 97 ≤ r ∧ r ≤ 122 then r          -- r >= 'a' && r <= 'z'
  else if 65 ≤ r ∧ r ≤ 90 then r + 32 -- r >= 'A' && r <= 'Z'
  else if 48 ≤ r ∧ r ≤ 57 then r      -- r >= '0' && r <= '9'
  else if r = 45 then r               -- r == '-'
  else 45

/-- Go helper `isAlphanumeric` (letters of either case or digits). -/
def isAlphanumeric (r : Nat) : Bool :=
  decide ((97 ≤ r ∧ r ≤ 122) ∨ (65 ≤ r ∧ r ≤ 90) ∨ (48 ≤ r ∧ r ≤ 57))

/-- Membership in the class `[a-z0-9-]` of runes that survive sanitization. -/
def isClass (r : Nat) : Bool :=
  decide ((97 ≤ r ∧ r ≤ 122) ∨ (48 ≤ r ∧ r ≤ 57) ∨ r = 45)

/-- Membership in `[a-z0-9]`: lower-case alphanumeric. -/
def isLowerAlnum (r : Nat) : Bool :=
  decide ((97 ≤ r ∧ r ≤ 122) ∨ (48 ≤ r ∧ r ≤ 57))

/-! ## Collapsing consecutive hyphens

The server runs `result = strings.ReplaceAll(result, "--", "-")` in a loop
while `strings.Contains(result, "--")`.  Each replacement pass strictly
shortens a string that contains `"--"`, so `s.length` passes always reach the
fixed point; the loop is embedded with that fuel. -/

/-- `strings.Contains s "--"`. -/
def containsDD : List Nat → Bool
  | [] => false
  | [_] => false
  | a :: b :: rest => (decide (a = 45) && decide (b = 45)) || containsDD (b :: rest)

/-- One pass of `strings.ReplaceAll s "--" "-"`: leftmost non-overlapping
occurrences of two hyphens become one. -/
def replaceDD : List Nat → List Nat
  | [] => []
  | [c] => [c]
  | a :: b :: rest =>
    if a = 45 ∧ b = 45 then 45 :: replaceDD rest
    else a :: replaceDD (b :: rest)

/-- The server's collapse loop, with an explicit fuel bound. -/
def collapseFuel : Nat → List Nat → List Nat
  | 0, s => s
  | n + 1, s => if containsDD s then collapseFuel n (replaceDD s) else s

/-- `for strings.Contains(result, "--") { result = strings.ReplaceAll(result, "--", "-") }`. -/
def collapseLoop (s : List Nat) : List Nat :=
  collapseFuel s.length s

/-- The client's one-pass collapse — the global regex replacement of each
maximal run of hyphens (`-+`) by a single hyphen. -/
def collapseRuns : List Nat → List Nat
  | [] => []
  | [c] => [c]
  | a :: b :: rest =>
    if a = 45 ∧ b = 45 then collapseRuns (b :: rest)
    else a :: collapseRuns (b :: rest)

/-! ## Trimming -/

/-- `strings.Trim(s, "-")` (also the client's
`result.replace(/^-+|-+$/g, '')`): drop every leading and every trailing
hyphen. -/
def trimHyphens (s : List Nat) : List Nat :=
  ((s.dropWhile (fun c => c == 45)).reverse.dropWhile (fun c => c == 45)).reverse

/-! ## Splitting, joining, truncating -/

/-- `strings.Split s "-"` for the single-rune separator (also the client's
`s.split('-')`): split at every separator, keeping empty fields. -/
def splitOnSep (sep : Nat) : List Nat → List (List Nat)
  | [] => [[]]
  | c :: rest =>
    if c = sep then [] :: splitOnSep sep rest
    else
      match splitOnSep sep rest with
      | p :: ps => (c :: p) :: ps
      | [] => [[c]]

/-- `strings.Join parts "-"` (also the client's `parts.join('-')`). -/
def joinHyphen : List (List Nat) → List Nat
  | [] => []
  | [p] => p
  | p :: ps => p ++ 45 :: joinHyphen ps

/-- Go helper `truncateParts`: shorten hyphen-separated parts to fit
`maxLength`.  Go's `int` division truncates toward zero (`Int.tdiv`); the
slice `parts[0][:1]` of the fallback is `List.take 1` (Go would panic on an
empty part, which the call site never produces). -/
def truncateParts (parts : List (List Nat)) (maxLength : Nat) : List Nat :=
  if parts.isEmpty then []
  else
    let targetLen : Int :=
      Int.tdiv ((maxLength : Int) - ((parts.length : Int) - 1)) (parts.length : Int)
    if targetLen < 1 then
      (parts.headD []).take 1 ++ 45 :: (parts.getLastD []).take 1
    else
      joinHyphen (parts.map (fun p =>
        if targetLen.toNat < p.length then p.take targetLen.toNat else p))

/-! ## The GKE fast path

Go: `strings.HasPrefix(name, "gke_") && strings.Count(name, "_") >= 3`
guarding `regexp.MatchString("^gke_[a-z0-9-]+_[a-z0-9-]+_[a-z0-9-]+$", name)`.
Client: `name.startsWith('gke_') && name.split('_').length >= 4` guarding a
test of the same anchored regex.  Since `_` cannot occur in `[a-z0-9-]+`, a
string matches the regex exactly when splitting it on `_` yields the four
fields `gke`, and three non-empty all-`[a-z0-9-]` segments. -/

/-- One `[a-z0-9-]+` segment of the GKE regex. -/
def gkeSegment (p : List Nat) : Bool :=
  !p.isEmpty && p.all (fun c => isClass c)

/-- Full-string match of `^gke_[a-z0-9-]+_[a-z0-9-]+_[a-z0-9-]+$`. -/
def gkeRegexMatch (name : List Nat) : Bool :=
  match splitOnSep 95 name with
  | [g, a, b, c] => (g == runes "gke") && gkeSegment a && gkeSegment b && gkeSegment c
  | _ => false

/-- Whether the first rune list is an initial segment of the second. -/
def startsWithRunes : List Nat → List Nat → Bool
  | [], _ => true
  | _ :: _, [] => false
  | p :: ps, c :: cs => (p == c) && startsWithRunes ps cs

/-- The server's guard for returning a GKE-formatted name unchanged. -/
def goIsGKE (name : List Nat) : Bool :=
  startsWithRunes (runes "gke_") name && decide (3 ≤ name.count 95) && gkeRegexMatch name

/-- The client's guard for returning a GKE-formatted name unchanged
(`name.split('_').length >= 4` in place of the underscore count). -/
def jsIsGKE (name : List Nat) : Bool :=
  startsWithRunes (runes "gke_") name && decide (4 ≤ (splitOnSep 95 name).length)
    && gkeRegexMatch name

/-! ## The server canonicalizer -/

/-- The server pipeline from the replacement pass up to (and including) the
two boundary fixes — everything `MakeDNSFriendly` does to a non-empty,
non-GKE name before the length check.  The replacement table is folded in
its textual order; by claim C10 every iteration order of the Go map yields
the same string. -/
def boundaryFix (r4 : List Nat) : List Nat :=
  let r5 := if r4.isEmpty || !isAlphanumeric (r4.headD 0) then runes "x-" ++ r4 else r4
  if !isAlphanumeric (r5.getLastD 0) then r5 ++ runes "-x" else r5

def cleanName (name : List Nat) : List Nat :=
  boundaryFix (trimHyphens (collapseLoop ((applyReplacements replacements name).map goMapRune)))

/-- Server-side `MakeDNSFriendly` (Go).  Logging calls are observational and
omitted. -/
def goMakeDNSFriendly (name : List Nat) : List Nat :=
  if name.isEmpty then runes "unnamed-context"
  else if goIsGKE name then name
  else
    let result := cleanName name
    let result :=
      if MaxDNSLabelLength < result.length then
        if result.contains 45 then truncateParts (splitOnSep 45 result) MaxDNSLabelLength
        else result.take MaxDNSLabelLength
      else result
    if result.isEmpty then runes "unnamed-context" else result

/-! ## The client canonicalizer -/

/-- Modelled fragment of `String.prototype.toLowerCase()`: the Unicode
lowercase mapping, restricted to the code points this development evaluates
it on.  It is faithful on all of ASCII (`A`–`Z` gain 32, everything else is
fixed) and on U+212A KELVIN SIGN, whose Unicode simple lowercase mapping is
`k` (U+006B).  Other non-ASCII code points are modelled as fixed points;
no result below applies the client pipeline to any of them. -/
def jsToLower (r : Nat) : List Nat :=
  if 65 ≤ r ∧ r ≤ 90 then [r + 32]
  else if r = 8490 then [107]
  else [r]

/-- The client's `result.replace(/[^a-z0-9-]/g, '-')`, code-point-wise.  (The
JavaScript regex operates on UTF-16 code units; on the basic multilingual
plane — the only region any theorem below touches — one code point is one
code unit.) -/
def jsSanitize (r : Nat) : Nat :=
  if isClass r then r else 45

/-- The client's truncation branch: `Math.floor` of an exact division is
`Int.fdiv`, and `part.slice(0, targetLen)` is `List.take`. -/
def jsTruncate (result : List Nat) : List Nat :=
  let parts := splitOnSep 45 result
  let targetLen : Int :=
    Int.fdiv ((MaxDNSLabelLength : Int) - ((parts.length : Int) - 1)) (parts.length : Int)
  if 1 ≤ targetLen then
    joinHyphen (parts.map (fun p => p.take targetLen.toNat))
  else
    (parts.headD []).take 1 ++ 45 :: (parts.getLastD []).take 1

/-- Client-side `makeDNSFriendly` (TypeScript), the pre-flight mirror. -/
def jsMakeDNSFriendly (name : List Nat) : List Nat :=
  if name.isEmpty then runes "unnamed-context"
  else if jsIsGKE name then name
  else
    let r1 := name.flatMap jsToLower
    let r2 := applyReplacements replacements r1
    let r3 := r2.map jsSanitize
    let r4 := collapseRuns r3
    let r5 := trimHyphens r4
    let r6 := if r5.isEmpty || !isLowerAlnum (r5.headD 0) then runes "x-" ++ r5 else r5
    let r7 := if !isLowerAlnum (r6.getLastD 0) then r6 ++ runes "-x" else r6
    let r8 :=
      if MaxDNSLabelLength < r7.length then
        if r7.contains 45 then jsTruncate r7 else r7.take MaxDNSLabelLength
      else r7
    if r8.isEmpty then runes "unnamed-context" else r8

/-! ## DNS-label predicates (from the spec's regexes) -/

/-- The spec's strict regex `^[a-z0-9][a-z0-9-]*[a-z0-9]$`: it forces length
at least two. -/
def matchesStrictDNSLabel (s : List Nat) : Bool :=
  decide (2 ≤ s.length) && s.all (fun c => isClass c)
    && isLowerAlnum (s.headD 0) && isLowerAlnum (s.getLastD 0)

/-- The relaxed regex `^[a-z0-9]([a-z0-9-]*[a-z0-9])?$`: non-empty, every
rune in `[a-z0-9-]`, first and last rune alphanumeric (a single-rune label is
allowed). -/
def matchesRelaxedDNSLabel (s : List Nat) : Bool :=
  !s.isEmpty && s.all (fun c => isClass c)
    && isLowerAlnum (s.headD 0) && isLowerAlnum (s.getLastD 0)

/-! ## Shape of the cleaned-up name -/

/-- The good shape of pipeline intermediates: non-empty, every rune in
`[a-z0-9-]`, no `--`, alphanumeric first and last rune. -/
def GoodCore (y : List Nat) : Prop :=
  y ≠ [] ∧ (∀ c ∈ y, isClass c = true) ∧ containsDD y = false ∧
    isLowerAlnum (y.headD 0) = true ∧ isLowerAlnum (y.getLastD 0) = true

/-- The shape every non-GKE output has: non-empty, every rune in
`[a-z0-9-]`, alphanumeric first and last rune (`--` may appear, see the
`"x--x"` output). -/
def RelaxedOK (y : List Nat) : Prop :=
  y ≠ [] ∧ (∀ c ∈ y, isClass c = true) ∧
    isLowerAlnum (y.headD 0) = true ∧ isLowerAlnum (y.getLastD 0) = true

/-! ## The spec's floor-based description of the truncation step -/

/-- The spec's `targetLen = floor((63 - (partCount-1)) / partCount)`
(`Math.floor` of an exact division is `Int.fdiv`). -/
def specTargetLen (n : Nat) : Int :=
  Int.fdiv ((63 : Int) - ((n : Int) - 1)) (n : Int)

/-- The truncation behavior exactly as claim C4 words it: split on `-`;
if `targetLen ≥ 1` truncate every part to `targetLen` runes and rejoin with
`-`; if `targetLen < 1` keep the first rune of the first and of the last
part; with no hyphen present, hard-truncate to 63 runes. -/
def specTruncation (r : List Nat) : List Nat :=
  if r.contains 45 then
    if 1 ≤ specTargetLen (splitOnSep 45 r).length then
      joinHyphen ((splitOnSep 45 r).map (fun p =>
        p.take (specTargetLen (splitOnSep 45 r).length).toNat))
    else ((splitOnSep 45 r).headD []).take 1 ++ 45 :: ((splitOnSep 45 r).getLastD []).take 1
  else r.take 63

/-! ## The TTL cache

Modelled from the spec: the cache package (`backend/pkg/cache`) is not under
`src/`; only its consumer (the context store) and its observable behavior in
the tests are.  Spec §4.2 fixes the contract: `Set(key, value)` stores with
no expiry, `SetWithTTL(key, value, d)` stores with absolute expiry `now+d`,
`Get` and `GetAll` treat an entry whose expiry instant has passed as absent
(lazy expiry, nothing is swept), `UpdateTTL(key, d)` fails `NotFound` for an
absent key and otherwise resets the expiry to `now+d`.  Time is modelled by
an explicit `now : Nat` argument to each operation; the mapping is an
association list in which `Set` replaces the entry of an existing key in
place and appends a new entry otherwise. -/

structure CEntry (V : Type) where
  value : V
  expiry : Option Nat
deriving DecidableEq

abbrev CacheL (V : Type) := List (List Nat × CEntry V)

def entryExpired {V : Type} (e : CEntry V) (now : Nat) : Bool :=
  match e.expiry with
  | none => false
  | some t => decide (t < now)

def cacheSetE {V : Type} (k : List Nat) (e : CEntry V) (st : CacheL V) : CacheL V :=
  if st.any (fun en => en.1 == k) then
    st.map (fun en => if en.1 == k then (k, e) else en)
  else st ++ [(k, e)]

def cacheSet {V : Type} (k : List Nat) (v : V) (st : CacheL V) : CacheL V :=
  cacheSetE k ⟨v, none⟩ st

def cacheSetWithTTL {V : Type} (now : Nat) (k : List Nat) (v : V) (ttl : Nat)
    (st : CacheL V) : CacheL V :=
  cacheSetE k ⟨v, some (now + ttl)⟩ st

def cacheGet {V : Type} (now : Nat) (st : CacheL V) (k : List Nat) : Except String V :=
  match st.lookup k with
  | none => .error "NotFound"
  | some e => if entryExpired e now then .error "NotFound" else .ok e.value

def cacheGetAll {V : Type} (now : Nat) (st : CacheL V) : CacheL V :=
  st.filter (fun en => !entryExpired en.2 now)

def cacheUpdateTTL {V : Type} (now : Nat) (k : List Nat) (ttl : Nat) (st : CacheL V) :
    Except String (CacheL V) :=
  match st.lookup k with
  | none => .error "NotFound"
  | some e =>
    if entryExpired e now then .error "NotFound"
    else .ok (st.map (fun en => if en.1 == k then (k, ⟨e.value, some (now + ttl)⟩) else en))

/-! ## The context store

`AddContext`, `GetContexts`, `GetContext`, `AddContextWithKeyAndTTL` and
`UpdateTTL` are translated from `backend/pkg/kubeconfig` (the store file is
under `src/`); the `Context` value carries the fields these operations
touch.  The `headlamp_info` extension payload is a `runtime.Unknown` JSON
blob in Go; its `json.Marshal`/`json.Unmarshal` round trip into
`CustomObject` is modelled by its outcome — either the decoded object or
the decode error message. -/

structure CustomObject where
  customName : List Nat
deriving DecidableEq

inductive ExtPayload where
  | decodable (obj : CustomObject)
  | malformed (err : String)
deriving DecidableEq

structure KubeCtx where
  extensions : List (String × ExtPayload)
deriving DecidableEq

structure Context where
  name : List Nat
  kubeContext : Option KubeCtx
deriving DecidableEq

/-- The name-derivation step at the top of `AddContext`: a present
`headlamp_info` extension is decoded, a decode failure aborts, and a
non-empty `customName` overrides the context's own name. -/
def deriveName (c : Context) : Except String (List Nat) :=
  match c.kubeContext with
  | some kc =>
    match kc.extensions.lookup "headlamp_info" with
    | some (.malformed e) => .error e
    | some (.decodable obj) => .ok (if obj.customName ≠ [] then obj.customName else c.name)
    | none => .ok c.name
  | none => .ok c.name

/-- `AddContext`: derive the name, canonicalize it, mutate the context's
`Name` in place and `Set` it into the cache.  The triple returned is the
caller-visible state after the Go call: the store, the (possibly mutated)
context, and the error. -/
def AddContext (st : CacheL Context) (c : Context) :
    CacheL Context × Context × Option String :=
  match deriveName c with
  | .error e => (st, c, some e)
  | .ok nm =>
    (cacheSet (goMakeDNSFriendly nm) { c with name := goMakeDNSFriendly nm } st,
      { c with name := goMakeDNSFriendly nm }, none)

/-- `GetContexts`: all non-expired values, enumeration order immaterial. -/
def GetContexts (now : Nat) (st : CacheL Context) : List Context :=
  (cacheGetAll now st).map (fun en => en.2.value)

/-- `GetContext`: cache pass-through keyed by canonical name. -/
def GetContext (now : Nat) (st : CacheL Context) (name : List Nat) : Except String Context :=
  cacheGet now st name

/-- `AddContextWithKeyAndTTL`: canonicalize the context's name in place and
store under the caller-supplied key with the given TTL. -/
def AddContextWithKeyAndTTL (now : Nat) (st : CacheL Context) (c : Context)
    (key : List Nat) (ttl : Nat) : CacheL Context × Context :=
  (cacheSetWithTTL now key { c with name := goMakeDNSFriendly c.name } ttl st,
    { c with name := goMakeDNSFriendly c.name })

/-- `UpdateTTL`: cache pass-through. -/
def UpdateTTL (now : Nat) (st : CacheL Context) (key : List Nat) (ttl : Nat) :
    Except String (CacheL Context) :=
  cacheUpdateTTL now key ttl st

/-- A context carries a malformed `headlamp_info` extension. -/
def malformedExt (c : Context) : Bool :=
  match c.kubeContext with
  | some kc =>
    match kc.extensions.lookup "headlamp_info" with
    | some (.malformed _) => true
    | _ => false
  | none => false

/-! ## The stateless cluster registry

Modelled from the spec: the client registry implementation
(`frontend/src/stateless`) is not under `src/` — only its test file is.
Spec §4.4 fixes the contract: `store(blob)` appends unconditionally,
`listAll()` returns every stored blob, and
`findAndReplace(clusterName, newBlob, create)` decodes each stored record's
kubeconfig, overwrites in place (same storage identity) the first record one
of whose contexts matches `clusterName`, and otherwise either appends
(`create = true`) or rejects with the literal message
`"No context found matching the cluster name"`.  A stored base64 blob is
modelled by its decoded context names together with its raw bytes; storage
identity is list position. -/

structure KubeBlob where
  contextNames : List String
  raw : String
deriving DecidableEq

def storeStatelessClusterKubeconfig (reg : List KubeBlob) (b : KubeBlob) :
    List KubeBlob :=
  reg ++ [b]

def getStatelessClusterKubeConfigs (reg : List KubeBlob) : List KubeBlob :=
  reg

def blobMatches (clusterName : String) (b : KubeBlob) : Bool :=
  b.contextNames.contains clusterName

def findAndReplaceKubeconfig (clusterName : String) (newBlob : KubeBlob)
    (create : Bool) (reg : List KubeBlob) : Except String (List KubeBlob) :=
  match reg.findIdx? (blobMatches clusterName) with
  | some i => .ok (reg.set i newBlob)
  | none =>
    if create then .ok (reg ++ [newBlob])
    else .error "No context found matching the cluster name"

/-! ## Theorems -/

/-! ## Order-independence of the replacement table (machinery for C10)

No replacement string contains any pattern rune, and every pattern is a
single rune, so the twelve `strings.ReplaceAll` passes commute: whatever
order the Go `for … range` map iteration visits the pairs in, the combined
effect is the rune-wise flat map by the (first-match) lookup in the table. -/

theorem replaceAllRune_nil (c : Nat) (r : List Nat) : replaceAllRune c r [] = [] := rfl

theorem replaceAllRune_append (c : Nat) (r s t : List Nat) :
    replaceAllRune c r (s ++ t) = replaceAllRune c r s ++ replaceAllRune c r t := by
  simp [replaceAllRune]

theorem applyReplacements_cons (p : Nat × List Nat) (L : List (Nat × List Nat))
    (s : List Nat) :
    applyReplacements (p :: L) s = applyReplacements L (replaceAllRune p.1 p.2 s) := rfl

theorem applyReplacements_nil_str (L : List (Nat × List Nat)) :
    applyReplacements L [] = [] := by
  induction L with
  | nil => rfl
  | cons p rest ih => rw [applyReplacements_cons, replaceAllRune_nil, ih]

theorem applyReplacements_append (L : List (Nat × List Nat)) (s t : List Nat) :
    applyReplacements L (s ++ t) = applyReplacements L s ++ applyReplacements L t := by
  induction L generalizing s t with
  | nil => rfl
  | cons p rest ih =>
    rw [applyReplacements_cons, replaceAllRune_append, ih, applyReplacements_cons,
      applyReplacements_cons]

theorem replaceAllRune_id_of_no_occurrence (c : Nat) (r t : List Nat)
    (h : ∀ y ∈ t, y ≠ c) : replaceAllRune c r t = t := by
  induction t with
  | nil => rfl
  | cons a t ih =>
    have ha : a ≠ c := h a (List.mem_cons_self a t)
    simp only [replaceAllRune, List.flatMap_cons, if_neg ha]
    have := ih (fun y hy => h y (List.mem_cons_of_mem a hy))
    simp only [replaceAllRune] at this
    rw [this]
    rfl

theorem applyReplacements_id_of_no_pattern (L : List (Nat × List Nat)) (t : List Nat)
    (h : ∀ y ∈ t, ∀ p ∈ L, y ≠ p.1) : applyReplacements L t = t := by
  induction L with
  | nil => rfl
  | cons p rest ih =>
    rw [applyReplacements_cons,
      replaceAllRune_id_of_no_occurrence p.1 p.2 t
        (fun y hy => h y hy p (List.mem_cons_self p rest))]
    exact ih (fun y hy q hq => h y hy q (List.mem_cons_of_mem p hq))

/-- No rune of any replacement string is a pattern of the table. -/
theorem repl_chars_no_pattern :
    ∀ p ∈ replacements, ∀ y ∈ p.2, ∀ q ∈ replacements, y ≠ q.1 := by decide

theorem applyReplacements_singleton (L : List (Nat × List Nat))
    (hL : ∀ p ∈ L, p ∈ replacements) (x : Nat) :
    applyReplacements L [x] = (List.lookup x L).getD [x] := by
  induction L with
  | nil => rfl
  | cons p rest ih =>
    obtain ⟨c, r⟩ := p
    have hmem : (c, r) ∈ replacements := hL _ (List.mem_cons_self _ _)
    have hrest : ∀ q ∈ rest, q ∈ replacements := fun q hq => hL q (List.mem_cons_of_mem _ hq)
    by_cases hx : x = c
    · subst hx
      have h1 : replaceAllRune x r [x] = r := by simp [replaceAllRune]
      have h2 : applyReplacements rest r = r :=
        applyReplacements_id_of_no_pattern rest r
          (fun y hy q hq => repl_chars_no_pattern _ hmem y hy q (hrest q hq))
      rw [applyReplacements_cons, h1, h2]
      simp [List.lookup]
    · have h1 : replaceAllRune c r [x] = [x] := by
        simp [replaceAllRune, if_neg hx]
      rw [applyReplacements_cons, h1, ih hrest]
      simp [List.lookup, beq_false_of_ne hx]

theorem lookup_mem_of_eq_some {L : List (Nat × List Nat)} {x : Nat} {r : List Nat}
    (h : List.lookup x L = some r) : (x, r) ∈ L := by
  induction L with
  | nil => simp [List.lookup] at h
  | cons p rest ih =>
    obtain ⟨c, v⟩ := p
    by_cases hx : x = c
    · subst hx
      simp [List.lookup] at h
      subst h
      exact List.mem_cons_self _ _
    · simp [List.lookup, beq_false_of_ne hx] at h
      exact List.mem_cons_of_mem _ (ih h)

theorem lookup_eq_none_iff_keys {L : List (Nat × List Nat)} {x : Nat} :
    List.lookup x L = none ↔ x ∉ L.map Prod.fst := by
  induction L with
  | nil => simp [List.lookup]
  | cons p rest ih =>
    obtain ⟨c, v⟩ := p
    by_cases hx : x = c
    · subst hx
      simp [List.lookup]
    · simp [List.lookup, beq_false_of_ne hx, hx, ih]

theorem lookup_eq_some_of_mem {L : List (Nat × List Nat)} {x : Nat} {r : List Nat}
    (nd : (L.map Prod.fst).Nodup) (h : (x, r) ∈ L) : List.lookup x L = some r := by
  induction L with
  | nil => simp at h
  | cons p rest ih =>
    obtain ⟨c, v⟩ := p
    simp only [List.map_cons, List.nodup_cons] at nd
    rcases List.mem_cons.mp h with heq | hmem
    · obtain ⟨rfl, rfl⟩ := Prod.mk.injEq .. ▸ heq
      injection heq with h1 h2
      simp [List.lookup]
    · have hx : x ≠ c := by
        intro hxc
        subst hxc
        exact nd.1 (List.mem_map.mpr ⟨(x, r), hmem, rfl⟩)
      simp [List.lookup, beq_false_of_ne hx]
      exact ih nd.2 hmem

theorem lookup_perm {L1 L2 : List (Nat × List Nat)} (h : L1.Perm L2)
    (nd : (L2.map Prod.fst).Nodup) (x : Nat) :
    List.lookup x L1 = List.lookup x L2 := by
  have nd1 : (L1.map Prod.fst).Nodup := ((h.map Prod.fst).nodup_iff).mpr nd
  cases h2 : List.lookup x L2 with
  | some r => exact lookup_eq_some_of_mem nd1 (h.mem_iff.mpr (lookup_mem_of_eq_some h2))
  | none =>
    rw [lookup_eq_none_iff_keys]
    intro hx
    exact lookup_eq_none_iff_keys.mp h2 ((h.map Prod.fst).mem_iff.mp hx)

theorem replacements_keys_nodup : (replacements.map Prod.fst).Nodup := by decide

/-! ## Rune-class facts -/

theorem isClass_goMapRune (r : Nat) : isClass (goMapRune r) = true := by
  simp only [goMapRune, isClass]
  split_ifs with h1 h2 h3 h4 <;> simp_all

theorem isLowerAlnum_of_class_ne (c : Nat) (h : isClass c = true) (hne : c ≠ 45) :
    isLowerAlnum c = true := by
  simp only [isClass, decide_eq_true_eq] at h
  simp only [isLowerAlnum, decide_eq_true_eq]
  omega

theorem isAlphanumeric_of_lowerAlnum (c : Nat) (h : isLowerAlnum c = true) :
    isAlphanumeric c = true := by
  simp only [isLowerAlnum, decide_eq_true_eq] at h
  simp only [isAlphanumeric, decide_eq_true_eq]
  omega

theorem ne_45_of_lowerAlnum (c : Nat) (h : isLowerAlnum c = true) : c ≠ 45 := by
  simp only [isLowerAlnum, decide_eq_true_eq] at h
  omega

theorem isLowerAlnum_of_alphanumeric_class (c : Nat) (h1 : isAlphanumeric c = true)
    (h2 : isClass c = true) : isLowerAlnum c = true := by
  simp only [isAlphanumeric, decide_eq_true_eq] at h1
  simp only [isClass, decide_eq_true_eq] at h2
  simp only [isLowerAlnum, decide_eq_true_eq]
  omega

/-! ## Collapse-loop facts -/

theorem containsDD_cons (a : Nat) (t : List Nat) (ht : t ≠ []) :
    containsDD (a :: t) = ((decide (a = 45) && decide (t.headD 0 = 45)) || containsDD t) := by
  cases t with
  | nil => exact absurd rfl ht
  | cons b rest => rfl

theorem replaceDD_cons2_pos (rest : List Nat) :
    replaceDD (45 :: 45 :: rest) = 45 :: replaceDD rest := by
  simp [replaceDD]

theorem replaceDD_cons2_neg {a b : Nat} (rest : List Nat) (h : ¬(a = 45 ∧ b = 45)) :
    replaceDD (a :: b :: rest) = a :: replaceDD (b :: rest) := by
  rw [replaceDD, if_neg h]

theorem mem_replaceDD {c : Nat} : ∀ {s : List Nat}, c ∈ replaceDD s → c ∈ s := by
  intro s
  induction s using replaceDD.induct with
  | case1 => intro h; exact h
  | case2 d => intro h; exact h
  | case3 a b rest hab ih =>
    obtain ⟨rfl, rfl⟩ := hab
    rw [replaceDD_cons2_pos]
    intro h
    rcases List.mem_cons.mp h with rfl | hm
    · exact List.mem_cons_self _ _
    · exact List.mem_cons_of_mem _ (List.mem_cons_of_mem _ (ih hm))
  | case4 a b rest hab ih =>
    rw [replaceDD_cons2_neg rest hab]
    intro h
    rcases List.mem_cons.mp h with rfl | hm
    · exact List.mem_cons_self _ _
    · exact List.mem_cons_of_mem _ (ih hm)

theorem length_replaceDD_le : ∀ s : List Nat, (replaceDD s).length ≤ s.length := by
  intro s
  induction s using replaceDD.induct with
  | case1 => simp [replaceDD]
  | case2 d => simp [replaceDD]
  | case3 a b rest hab ih =>
    obtain ⟨rfl, rfl⟩ := hab
    rw [replaceDD_cons2_pos]
    simp only [List.length_cons]
    omega
  | case4 a b rest hab ih =>
    rw [replaceDD_cons2_neg rest hab]
    simp only [List.length_cons] at *
    omega

theorem length_replaceDD_lt : ∀ s : List Nat, containsDD s = true →
    (replaceDD s).length < s.length := by
  intro s
  induction s using replaceDD.induct with
  | case1 => intro h; simp [containsDD] at h
  | case2 d => intro h; simp [containsDD] at h
  | case3 a b rest hab ih =>
    obtain ⟨rfl, rfl⟩ := hab
    intro _
    rw [replaceDD_cons2_pos]
    simp only [List.length_cons]
    have := length_replaceDD_le rest
    omega
  | case4 a b rest hab ih =>
    intro h
    have hcd : containsDD (b :: rest) = true := by
      rw [containsDD_cons a (b :: rest) (by simp)] at h
      rcases Bool.or_eq_true_iff.mp h with h1 | h1
      · exfalso
        apply hab
        simp only [Bool.and_eq_true, decide_eq_true_eq] at h1
        exact ⟨h1.1, by simpa using h1.2⟩
      · exact h1
    rw [replaceDD_cons2_neg rest hab]
    simp only [List.length_cons] at *
    have := ih hcd
    omega

theorem collapseFuel_noDD : ∀ (n : Nat) (s : List Nat), s.length ≤ n →
    containsDD (collapseFuel n s) = false := by
  intro n
  induction n with
  | zero =>
    intro s hs
    have : s = [] := List.length_eq_zero.mp (Nat.le_zero.mp hs)
    subst this
    rfl
  | succ n ih =>
    intro s hs
    by_cases h : containsDD s = true
    · rw [collapseFuel, if_pos h]
      exact ih (replaceDD s) (by have := length_replaceDD_lt s h; omega)
    · rw [collapseFuel, if_neg h]
      exact Bool.eq_false_iff.mpr h

theorem containsDD_collapseLoop (s : List Nat) : containsDD (collapseLoop s) = false :=
  collapseFuel_noDD s.length s le_rfl

theorem mem_collapseFuel {c : Nat} : ∀ (n : Nat) {s : List Nat},
    c ∈ collapseFuel n s → c ∈ s := by
  intro n
  induction n with
  | zero => intro s h; exact h
  | succ n ih =>
    intro s h
    by_cases hdd : containsDD s = true
    · rw [collapseFuel, if_pos hdd] at h
      exact mem_replaceDD (ih h)
    · rwa [collapseFuel, if_neg hdd] at h

theorem mem_collapseLoop {c : Nat} {s : List Nat} (h : c ∈ collapseLoop s) : c ∈ s :=
  mem_collapseFuel s.length h

/-! ## Head, last, trim -/

theorem headD_mem {s : List Nat} (h : s ≠ []) : s.headD 0 ∈ s := by
  cases s with
  | nil => exact absurd rfl h
  | cons a t => exact List.mem_cons_self a t

theorem headD_irrel {s : List Nat} (h : s ≠ []) (d d' : Nat) :
    s.headD d = s.headD d' := by
  cases s with
  | nil => exact absurd rfl h
  | cons a t => rfl

theorem headD_append_left {w : List Nat} (h : w ≠ []) (z : List Nat) (d : Nat) :
    (w ++ z).headD d = w.headD d := by
  cases w with
  | nil => exact absurd rfl h
  | cons a t => rfl

theorem getLastD_eq_headD_reverse : ∀ (s : List Nat) (d : Nat),
    s.getLastD d = s.reverse.headD d := by
  intro s
  induction s with
  | nil => intro d; rfl
  | cons a t ih =>
    intro d
    rw [List.getLastD_cons, List.reverse_cons]
    cases ht : t with
    | nil => rfl
    | cons b u =>
      have htne : t ≠ [] := by rw [ht]; simp
      have hrne : t.reverse ≠ [] := by simpa using htne
      rw [← ht, ih a, headD_append_left hrne [a] d, headD_irrel hrne a d]

theorem getLastD_irrel {s : List Nat} (h : s ≠ []) (d d' : Nat) :
    s.getLastD d = s.getLastD d' := by
  have hr : s.reverse ≠ [] := by simpa using h
  rw [getLastD_eq_headD_reverse s d, getLastD_eq_headD_reverse s d', headD_irrel hr d d']

theorem getLastD_append_right (u : List Nat) {v : List Nat} (h : v ≠ []) :
    (u ++ v).getLastD 0 = v.getLastD 0 := by
  have hv : v.reverse ≠ [] := by simpa using h
  rw [getLastD_eq_headD_reverse, getLastD_eq_headD_reverse, List.reverse_append,
    headD_append_left hv]

theorem getLastD_reverse (s : List Nat) : s.reverse.getLastD 0 = s.headD 0 := by
  rw [getLastD_eq_headD_reverse, List.reverse_reverse]

theorem headD_reverse (s : List Nat) : s.reverse.headD 0 = s.getLastD 0 :=
  (getLastD_eq_headD_reverse s 0).symm

theorem getLastD_mem {s : List Nat} (h : s ≠ []) : s.getLastD 0 ∈ s := by
  rw [← headD_reverse]
  have : s.reverse ≠ [] := by simpa using h
  exact List.mem_reverse.mp (headD_mem this)

theorem dropWhile45_headD_ne {s : List Nat}
    (h : s.dropWhile (fun c => c == 45) ≠ []) :
    (s.dropWhile (fun c => c == 45)).headD 0 ≠ 45 := by
  induction s with
  | nil => exact absurd rfl h
  | cons a t ih =>
    by_cases ha : a = 45
    · subst ha
      rw [List.dropWhile_cons_of_pos (by simp)] at h ⊢
      exact ih h
    · rw [List.dropWhile_cons_of_neg (by simpa using ha)]
      simpa using ha

theorem dropWhile45_suffix (s : List Nat) :
    ∃ u, s = u ++ s.dropWhile (fun c => c == 45) := by
  induction s with
  | nil => exact ⟨[], rfl⟩
  | cons a t ih =>
    by_cases ha : a = 45
    · subst ha
      rw [List.dropWhile_cons_of_pos (by simp)]
      obtain ⟨u, hu⟩ := ih
      exact ⟨45 :: u, by rw [List.cons_append, ← hu]⟩
    · rw [List.dropWhile_cons_of_neg (by simpa using ha)]
      exact ⟨[], rfl⟩

theorem mem_dropWhile45 {c : Nat} {s : List Nat}
    (h : c ∈ s.dropWhile (fun x => x == 45)) : c ∈ s := by
  obtain ⟨u, hu⟩ := dropWhile45_suffix s
  rw [hu]
  exact List.mem_append_right u h

theorem mem_trimHyphens {c : Nat} {s : List Nat} (h : c ∈ trimHyphens s) : c ∈ s := by
  unfold trimHyphens at h
  rw [List.mem_reverse] at h
  have := mem_dropWhile45 h
  rw [List.mem_reverse] at this
  exact mem_dropWhile45 this

theorem trimHyphens_headD_ne {s : List Nat} (h : trimHyphens s ≠ []) :
    (trimHyphens s).headD 0 ≠ 45 := by
  have hu : trimHyphens s =
      ((s.dropWhile (fun c => c == 45)).reverse.dropWhile (fun c => c == 45)).reverse := rfl
  generalize ht1 : s.dropWhile (fun c => c == 45) = t1 at hu
  generalize hg : t1.reverse.dropWhile (fun c => c == 45) = u at hu
  have hune : u ≠ [] := by
    intro hc
    rw [hu, hc] at h
    exact h rfl
  rw [hu, headD_reverse u]
  obtain ⟨w, hw⟩ := dropWhile45_suffix t1.reverse
  rw [hg] at hw
  have ht1ne : t1 ≠ [] := by
    intro hc
    rw [hc] at hw
    simp only [List.reverse_nil] at hw
    have : u = [] := by
      cases hwe : w with
      | nil => rw [hwe] at hw; exact hw.symm ▸ rfl
      | cons x xs => rw [hwe] at hw; exact absurd hw.symm (by simp)
    exact hune this
  calc u.getLastD 0 = t1.reverse.getLastD 0 := by rw [hw, getLastD_append_right w hune]
    _ = t1.headD 0 := getLastD_reverse t1
    _ ≠ 45 := by rw [← ht1]; exact dropWhile45_headD_ne (ht1 ▸ ht1ne)

theorem trimHyphens_getLastD_ne {s : List Nat} (h : trimHyphens s ≠ []) :
    (trimHyphens s).getLastD 0 ≠ 45 := by
  have hu : trimHyphens s =
      ((s.dropWhile (fun c => c == 45)).reverse.dropWhile (fun c => c == 45)).reverse := rfl
  generalize hg : (s.dropWhile (fun c => c == 45)).reverse.dropWhile (fun c => c == 45) = u at hu
  have hune : u ≠ [] := by
    intro hc
    rw [hu, hc] at h
    exact h rfl
  rw [hu, getLastD_reverse u, ← hg]
  exact dropWhile45_headD_ne (hg ▸ hune)

/-! ## Double hyphens, infixes, reversal -/

theorem containsDD_infix_iff : ∀ {s : List Nat}, containsDD s = true ↔ [45, 45] <:+: s := by
  intro s
  induction s using containsDD.induct with
  | case1 =>
    simp only [containsDD]
    constructor
    · intro h; exact absurd h (by simp)
    · intro h
      have := h.length_le
      simp at this
  | case2 c =>
    simp only [containsDD]
    constructor
    · intro h; exact absurd h (by simp)
    · intro h
      have := h.length_le
      simp at this
  | case3 a b rest ih =>
    constructor
    · intro h
      rcases Bool.or_eq_true_iff.mp h with h1 | h1
      · simp only [Bool.and_eq_true, decide_eq_true_eq] at h1
        obtain ⟨rfl, rfl⟩ := h1
        exact ⟨[], rest, rfl⟩
      · exact (ih.mp h1).trans ⟨[a], [], by simp⟩
    · intro h
      rcases List.infix_cons_iff.mp h with h1 | h1
      · rcases List.cons_prefix_cons.mp h1 with ⟨rfl, h2⟩
        rcases List.cons_prefix_cons.mp h2 with ⟨rfl, _⟩
        simp [containsDD]
      · have := ih.mpr h1
        simp only [containsDD]
        rw [this]
        simp

theorem containsDD_reverse (s : List Nat) : containsDD s.reverse = containsDD s := by
  by_cases h : containsDD s = true
  · rw [h]
    rw [containsDD_infix_iff]
    have h2 := containsDD_infix_iff.mp h
    have : ([45, 45] : List Nat).reverse <:+: s.reverse := h2.reverse
    simpa using this
  · have h' := Bool.eq_false_iff.mpr h
    rw [h']
    by_contra hc
    have hc' : containsDD s.reverse = true := by
      cases hcc : containsDD s.reverse
      · exact absurd hcc hc
      · rfl
    have h2 := containsDD_infix_iff.mp hc'
    have : ([45, 45] : List Nat).reverse <:+: s.reverse.reverse := h2.reverse
    simp only [List.reverse_reverse] at this
    have : ([45, 45] : List Nat) <:+: s := by simpa using this
    exact h (containsDD_infix_iff.mpr this)

theorem noDD_of_append_left {t u : List Nat} (h : containsDD (t ++ u) = false) :
    containsDD t = false := by
  by_contra hc
  have ht : containsDD t = true := by
    cases hcc : containsDD t
    · exact absurd hcc hc
    · rfl
  have : [45, 45] <:+: t ++ u := (containsDD_infix_iff.mp ht).trans ⟨[], u, by simp⟩
  rw [containsDD_infix_iff.mpr this] at h
  exact absurd h (by simp)

theorem noDD_of_append_right {t u : List Nat} (h : containsDD (t ++ u) = false) :
    containsDD u = false := by
  by_contra hc
  have hu : containsDD u = true := by
    cases hcc : containsDD u
    · exact absurd hcc hc
    · rfl
  have : [45, 45] <:+: t ++ u := (containsDD_infix_iff.mp hu).trans ⟨t, [], by simp⟩
  rw [containsDD_infix_iff.mpr this] at h
  exact absurd h (by simp)

theorem noDD_trimHyphens {s : List Nat} (h : containsDD s = false) :
    containsDD (trimHyphens s) = false := by
  have hu : trimHyphens s =
      ((s.dropWhile (fun c => c == 45)).reverse.dropWhile (fun c => c == 45)).reverse := rfl
  obtain ⟨w1, hw1⟩ := dropWhile45_suffix s
  have h1 : containsDD (s.dropWhile (fun c => c == 45)) = false :=
    noDD_of_append_right (hw1 ▸ h)
  have h2 : containsDD (s.dropWhile (fun c => c == 45)).reverse = false := by
    rw [containsDD_reverse]; exact h1
  obtain ⟨w2, hw2⟩ := dropWhile45_suffix (s.dropWhile (fun c => c == 45)).reverse
  have h3 : containsDD ((s.dropWhile (fun c => c == 45)).reverse.dropWhile
      (fun c => c == 45)) = false := noDD_of_append_right (hw2 ▸ h2)
  rw [hu, containsDD_reverse]
  exact h3

/-! ## Splitting facts -/

theorem splitOnSep_cons_sep (sep : Nat) (rest : List Nat) :
    splitOnSep sep (sep :: rest) = [] :: splitOnSep sep rest := by
  simp [splitOnSep]

theorem splitOnSep_ne_nil (sep : Nat) : ∀ s : List Nat, splitOnSep sep s ≠ [] := by
  intro s
  induction s with
  | nil => simp [splitOnSep]
  | cons c rest ih =>
    by_cases hc : c = sep
    · subst hc
      rw [splitOnSep_cons_sep]
      simp
    · unfold splitOnSep
      rw [if_neg hc]
      cases h : splitOnSep sep rest <;> simp

theorem splitOnSep_cons_ne {sep c : Nat} (rest : List Nat) (hc : c ≠ sep) :
    ∃ p ps, splitOnSep sep rest = p :: ps ∧ splitOnSep sep (c :: rest) = (c :: p) :: ps := by
  cases h : splitOnSep sep rest with
  | nil => exact absurd h (splitOnSep_ne_nil sep rest)
  | cons p ps =>
    refine ⟨p, ps, rfl, ?_⟩
    unfold splitOnSep
    rw [if_neg hc, h]

theorem splitOnSep_mem : ∀ {s : List Nat} {p : List Nat}, p ∈ splitOnSep 45 s →
    ∀ y ∈ p, y ∈ s ∧ y ≠ 45 := by
  intro s
  induction s with
  | nil =>
    intro p hp y hy
    simp [splitOnSep] at hp
    subst hp
    simp at hy
  | cons c rest ih =>
    intro p hp y hy
    by_cases hc : c = 45
    · subst hc
      rw [splitOnSep_cons_sep] at hp
      rcases List.mem_cons.mp hp with rfl | hp2
      · simp at hy
      · have := ih hp2 y hy
        exact ⟨List.mem_cons_of_mem _ this.1, this.2⟩
    · obtain ⟨p0, ps0, hsplit, hfull⟩ := splitOnSep_cons_ne rest hc
      rw [hfull] at hp
      rcases List.mem_cons.mp hp with rfl | hp2
      · rcases List.mem_cons.mp hy with rfl | hy2
        · exact ⟨List.mem_cons_self _ _, hc⟩
        · have hp0 : p0 ∈ splitOnSep 45 rest := by rw [hsplit]; exact List.mem_cons_self _ _
          have := ih hp0 y hy2
          exact ⟨List.mem_cons_of_mem _ this.1, this.2⟩
      · have hpm : p ∈ splitOnSep 45 rest := by rw [hsplit]; exact List.mem_cons_of_mem _ hp2
        have := ih hpm y hy
        exact ⟨List.mem_cons_of_mem _ this.1, this.2⟩

theorem splitOnSep_length_eq_count (sep : Nat) : ∀ s : List Nat,
    (splitOnSep sep s).length = s.count sep + 1 := by
  intro s
  induction s with
  | nil => simp [splitOnSep]
  | cons c rest ih =>
    by_cases hc : c = sep
    · subst hc
      rw [splitOnSep_cons_sep]
      simp only [List.length_cons, ih, List.count_cons]
      simp
    · obtain ⟨p0, ps0, hsplit, hfull⟩ := splitOnSep_cons_ne rest hc
      rw [hfull]
      simp only [List.length_cons]
      have h1 : (splitOnSep sep rest).length = ps0.length + 1 := by rw [hsplit]; rfl
      rw [h1] at ih
      simp only [List.count_cons]
      have hne : ¬((c == sep) = true) := by simpa using hc
      rw [if_neg hne]
      omega

theorem splitOnSep_two_le {s : List Nat} (h : 45 ∈ s) :
    2 ≤ (splitOnSep 45 s).length := by
  rw [splitOnSep_length_eq_count]
  have : 0 < s.count 45 := List.count_pos_iff.mpr h
  omega

theorem splitOnSep_parts_ne_nil_aux : ∀ (n : Nat) (s : List Nat), s.length ≤ n →
    s ≠ [] → s.headD 0 ≠ 45 → s.getLastD 0 ≠ 45 → containsDD s = false →
    ∀ p ∈ splitOnSep 45 s, p ≠ [] := by
  intro n
  induction n with
  | zero =>
    intro s hlen hne _ _ _
    exact absurd (List.length_eq_zero.mp (Nat.le_zero.mp hlen)) hne
  | succ n ih =>
    intro s hlen hne hhead hlast hdd p hp
    cases s with
    | nil => exact absurd rfl hne
    | cons a t =>
      have ha : a ≠ 45 := by simpa using hhead
      obtain ⟨p0, ps0, hsplit, hfull⟩ := splitOnSep_cons_ne t ha
      rw [hfull] at hp
      rcases List.mem_cons.mp hp with rfl | hp2
      · simp
      cases t with
      | nil =>
        rw [show splitOnSep 45 [] = [[]] from rfl] at hsplit
        injection hsplit with h1 h2
        rw [← h2] at hp2
        simp at hp2
      | cons b u =>
        by_cases hb : b = 45
        · subst hb
          rw [splitOnSep_cons_sep] at hsplit
          injection hsplit with h1 h2
          rw [← h2] at hp2
          have hu_ne : u ≠ [] := by
            intro hc
            subst hc
            simp [List.getLastD_cons] at hlast
          have e2 : a :: 45 :: u = [a, 45] ++ u := rfl
          have hu_last : u.getLastD 0 ≠ 45 := by
            rw [e2, getLastD_append_right [a, 45] hu_ne] at hlast
            exact hlast
          have e1 : a :: 45 :: u = [a] ++ 45 :: u := rfl
          have hdd' : containsDD (45 :: u) = false := by
            rw [e1] at hdd
            exact noDD_of_append_right hdd
          have e3 : (45 :: u : List Nat) = [45] ++ u := rfl
          have hu_dd : containsDD u = false := by
            rw [e3] at hdd'
            exact noDD_of_append_right hdd'
          have hu_head : u.headD 0 ≠ 45 := by
            intro hcc
            rw [containsDD_cons 45 u hu_ne, hcc] at hdd'
            simp at hdd'
          have hu_len : u.length ≤ n := by
            simp only [List.length_cons] at hlen
            omega
          exact ih u hu_len hu_ne hu_head hu_last hu_dd p hp2
        · have hsp : p ∈ splitOnSep 45 (b :: u) := by
            rw [hsplit]
            exact List.mem_cons_of_mem _ hp2
          have e1 : a :: b :: u = [a] ++ b :: u := rfl
          have hbu_last : (b :: u).getLastD 0 ≠ 45 := by
            rw [e1, getLastD_append_right [a] (by simp)] at hlast
            exact hlast
          have hbu_dd : containsDD (b :: u) = false := by
            rw [e1] at hdd
            exact noDD_of_append_right hdd
          have hbu_len : (b :: u).length ≤ n := by
            simp only [List.length_cons] at hlen ⊢
            omega
          exact ih (b :: u) hbu_len (by simp) (by simpa using hb) hbu_last hbu_dd p hsp

theorem splitOnSep_parts_ne_nil {s : List Nat} (hne : s ≠ [])
    (hhead : s.headD 0 ≠ 45) (hlast : s.getLastD 0 ≠ 45)
    (hdd : containsDD s = false) : ∀ p ∈ splitOnSep 45 s, p ≠ [] :=
  splitOnSep_parts_ne_nil_aux s.length s le_rfl hne hhead hlast hdd

/-! ## Joining facts -/

theorem joinHyphen_cons (p : List Nat) {ps : List (List Nat)} (h : ps ≠ []) :
    joinHyphen (p :: ps) = p ++ 45 :: joinHyphen ps := by
  cases ps with
  | nil => exact absurd rfl h
  | cons q qs => rfl

theorem joinHyphen_ne_nil : ∀ {ps : List (List Nat)}, ps ≠ [] →
    (∀ p ∈ ps, p ≠ []) → joinHyphen ps ≠ [] := by
  intro ps hne hparts
  cases ps with
  | nil => exact absurd rfl hne
  | cons p qs =>
    cases qs with
    | nil => exact hparts p (List.mem_cons_self _ _)
    | cons q rs =>
      rw [joinHyphen_cons p (by simp)]
      simp

theorem joinHyphen_mem : ∀ {ps : List (List Nat)} {y : Nat}, y ∈ joinHyphen ps →
    y = 45 ∨ ∃ p ∈ ps, y ∈ p := by
  intro ps
  induction ps with
  | nil => intro y hy; simp [joinHyphen] at hy
  | cons p qs ih =>
    intro y hy
    cases qs with
    | nil =>
      exact Or.inr ⟨p, List.mem_cons_self _ _, hy⟩
    | cons q rs =>
      rw [joinHyphen_cons p (by simp)] at hy
      rcases List.mem_append.mp hy with h1 | h1
      · exact Or.inr ⟨p, List.mem_cons_self _ _, h1⟩
      · rcases List.mem_cons.mp h1 with rfl | h2
        · exact Or.inl rfl
        · rcases ih h2 with h3 | ⟨r, hr, hyr⟩
          · exact Or.inl h3
          · exact Or.inr ⟨r, List.mem_cons_of_mem _ hr, hyr⟩

theorem joinHyphen_headD {p : List Nat} (ps : List (List Nat)) (h : p ≠ []) :
    (joinHyphen (p :: ps)).headD 0 = p.headD 0 := by
  cases ps with
  | nil => rfl
  | cons q rs =>
    rw [joinHyphen_cons p (by simp)]
    exact headD_append_left h _ 0

theorem getLastD_irrelG {α : Type _} (s : List α) (h : s ≠ []) (d d' : α) :
    s.getLastD d = s.getLastD d' := by
  cases s with
  | nil => exact absurd rfl h
  | cons a t => simp only [List.getLastD_cons]

theorem joinHyphen_getLastD : ∀ {ps : List (List Nat)}, ps ≠ [] →
    (∀ p ∈ ps, p ≠ []) → (joinHyphen ps).getLastD 0 = (ps.getLastD []).getLastD 0 := by
  intro ps
  induction ps with
  | nil => intro h _; exact absurd rfl h
  | cons p qs ih =>
    intro _ hparts
    cases qs with
    | nil => rfl
    | cons q rs =>
      rw [joinHyphen_cons p (by simp)]
      have hqs : ∀ r ∈ q :: rs, r ≠ [] := fun r hr => hparts r (List.mem_cons_of_mem _ hr)
      have hjoin_ne : joinHyphen (q :: rs) ≠ [] := joinHyphen_ne_nil (by simp) hqs
      rw [getLastD_append_right p (by simp)]
      calc (45 :: joinHyphen (q :: rs)).getLastD 0
          = (joinHyphen (q :: rs)).getLastD 45 := by rw [List.getLastD_cons]
        _ = (joinHyphen (q :: rs)).getLastD 0 := getLastD_irrel hjoin_ne 45 0
        _ = ((q :: rs).getLastD []).getLastD 0 := ih (by simp) hqs
        _ = ((p :: q :: rs).getLastD []).getLastD 0 := by
            rw [show (p :: q :: rs).getLastD [] = (q :: rs).getLastD p from List.getLastD_cons ..]
            rw [getLastD_irrelG (q :: rs) (by simp) p []]

theorem noDD_of_no45 : ∀ {p : List Nat}, (∀ y ∈ p, y ≠ 45) → containsDD p = false := by
  intro p
  induction p using containsDD.induct with
  | case1 => intro _; rfl
  | case2 c => intro _; rfl
  | case3 a b rest ih =>
    intro h
    have ha : a ≠ 45 := h a (List.mem_cons_self _ _)
    rw [containsDD_cons a (b :: rest) (by simp),
      ih (fun y hy => h y (List.mem_cons_of_mem _ hy)), decide_eq_false ha]
    simp

theorem noDD_append_no45 {p w : List Nat} (hp : ∀ y ∈ p, y ≠ 45)
    (hw : containsDD (45 :: w) = false) : containsDD (p ++ 45 :: w) = false := by
  induction p with
  | nil => exact hw
  | cons a q ih =>
    have ha : a ≠ 45 := hp a (List.mem_cons_self _ _)
    have hq : ∀ y ∈ q, y ≠ 45 := fun y hy => hp y (List.mem_cons_of_mem _ hy)
    rw [List.cons_append, containsDD_cons a (q ++ 45 :: w) (by simp), ih hq,
      decide_eq_false ha]
    simp

theorem joinHyphen_noDD : ∀ {ps : List (List Nat)},
    (∀ p ∈ ps, p ≠ [] ∧ ∀ y ∈ p, y ≠ 45) → containsDD (joinHyphen ps) = false := by
  intro ps
  induction ps with
  | nil => intro _; rfl
  | cons p qs ih =>
    intro h
    cases qs with
    | nil => exact noDD_of_no45 (h p (List.mem_cons_self _ _)).2
    | cons q rs =>
      rw [joinHyphen_cons p (by simp)]
      have hqs : ∀ r ∈ q :: rs, r ≠ [] ∧ ∀ y ∈ r, y ≠ 45 :=
        fun r hr => h r (List.mem_cons_of_mem _ hr)
      have hjoin_ne : joinHyphen (q :: rs) ≠ [] :=
        joinHyphen_ne_nil (by simp) (fun r hr => (hqs r hr).1)
      have hjoin_head : (joinHyphen (q :: rs)).headD 0 ≠ 45 := by
        rw [joinHyphen_headD rs (hqs q (List.mem_cons_self _ _)).1]
        have hqne := (hqs q (List.mem_cons_self _ _)).1
        exact (hqs q (List.mem_cons_self _ _)).2 _ (headD_mem hqne)
      apply noDD_append_no45 (h p (List.mem_cons_self _ _)).2
      rw [containsDD_cons 45 (joinHyphen (q :: rs)) hjoin_ne, ih hqs,
        decide_eq_false hjoin_head]
      simp

theorem joinHyphen_length : ∀ ps : List (List Nat),
    (joinHyphen ps).length = (ps.map List.length).sum + ps.length - 1 := by
  intro ps
  induction ps with
  | nil => rfl
  | cons p qs ih =>
    cases qs with
    | nil => simp [joinHyphen]
    | cons q rs =>
      rw [joinHyphen_cons p (by simp)]
      simp only [List.length_append, List.length_cons, ih, List.map_cons, List.sum_cons]
      have : (q.length + (rs.map List.length).sum) + (rs.length + 1) - 1 =
          q.length + (rs.map List.length).sum + rs.length := by omega
      simp only [List.map_cons, List.sum_cons] at *
      omega

/-! ## Take facts -/

theorem take_ne_nil {s : List Nat} (h : s ≠ []) {n : Nat} (hn : 1 ≤ n) :
    s.take n ≠ [] := by
  cases s with
  | nil => exact absurd rfl h
  | cons a t =>
    cases n with
    | zero => omega
    | succ m => simp

theorem take_headD {s : List Nat} (h : s ≠ []) {n : Nat} (hn : 1 ≤ n) :
    (s.take n).headD 0 = s.headD 0 := by
  cases s with
  | nil => exact absurd rfl h
  | cons a t =>
    cases n with
    | zero => omega
    | succ m => rfl

theorem mem_take {c : Nat} {s : List Nat} {n : Nat} (h : c ∈ s.take n) : c ∈ s :=
  List.take_subset n s h

/-! ## Generic head/last helpers for lists of parts -/

theorem headD_memG {α : Type _} {s : List α} (h : s ≠ []) (d : α) : s.headD d ∈ s := by
  cases s with
  | nil => exact absurd rfl h
  | cons a t => exact List.mem_cons_self a t

theorem getLastD_memG {α : Type _} : ∀ {s : List α}, s ≠ [] → ∀ d : α, s.getLastD d ∈ s := by
  intro s
  induction s with
  | nil => intro h; exact absurd rfl h
  | cons a t ih =>
    intro _ d
    cases t with
    | nil => exact List.mem_cons_self a []
    | cons b u =>
      rw [List.getLastD_cons]
      exact List.mem_cons_of_mem a (ih (by simp) a)

theorem getLastD_map {α β : Type _} (f : α → β) : ∀ {s : List α}, s ≠ [] →
    ∀ (d : β) (d' : α), (s.map f).getLastD d = f (s.getLastD d') := by
  intro s
  induction s with
  | nil => intro h; exact absurd rfl h
  | cons a t ih =>
    intro _ d d'
    cases t with
    | nil => rfl
    | cons b u =>
      rw [List.map_cons, List.getLastD_cons, List.getLastD_cons]
      exact ih (by simp) (f a) a

theorem take_one_of_ne_nil {s : List Nat} (h : s ≠ []) : s.take 1 = [s.headD 0] := by
  cases s with
  | nil => exact absurd rfl h
  | cons a t => simp

theorem sum_le_length_mul : ∀ (l : List Nat) (m : Nat), (∀ x ∈ l, x ≤ m) →
    l.sum ≤ l.length * m := by
  intro l m
  induction l with
  | nil => intro _; simp
  | cons a t ih =>
    intro h
    simp only [List.sum_cons, List.length_cons]
    have h1 := h a (List.mem_cons_self _ _)
    have h2 := ih (fun x hx => h x (List.mem_cons_of_mem _ hx))
    have : (t.length + 1) * m = t.length * m + m := by ring
    omega

theorem matchesRelaxedDNSLabel_iff (y : List Nat) :
    matchesRelaxedDNSLabel y = true ↔ RelaxedOK y := by
  simp only [matchesRelaxedDNSLabel, RelaxedOK, Bool.and_eq_true, List.all_eq_true,
    Bool.not_eq_true', List.isEmpty_eq_false_iff_exists_mem]
  constructor
  · rintro ⟨⟨⟨⟨x, hx⟩, h2⟩, h3⟩, h4⟩
    exact ⟨fun hc => by subst hc; simp at hx, h2, h3, h4⟩
  · rintro ⟨h1, h2, h3, h4⟩
    refine ⟨⟨⟨?_, h2⟩, h3⟩, h4⟩
    cases y with
    | nil => exact absurd rfl h1
    | cons a t => exact ⟨a, List.mem_cons_self _ _⟩

theorem boundaryFix_nil : boundaryFix [] = runes "x--x" := by decide

theorem boundaryFix_of_good {y0 : List Nat} (hne : y0 ≠ [])
    (hh : isAlphanumeric (y0.headD 0) = true)
    (hl : isAlphanumeric (y0.getLastD 0) = true) : boundaryFix y0 = y0 := by
  have hE : y0.isEmpty = false := by
    cases y0 with
    | nil => exact absurd rfl hne
    | cons a t => rfl
  simp only [boundaryFix, hE, hh, hl, Bool.not_true, Bool.or_false, Bool.false_eq_true,
    if_false]

/-- Everything `cleanName` produces is either the degenerate `"x--x"`
(exactly when trimming left nothing) or a good-shaped string. -/
theorem cleanName_cases (n : List Nat) :
    cleanName n = runes "x--x" ∨ GoodCore (cleanName n) := by
  by_cases hy0 :
      trimHyphens (collapseLoop ((applyReplacements replacements n).map goMapRune)) = []
  · left
    unfold cleanName
    rw [hy0, boundaryFix_nil]
  · right
    have hclass : ∀ c ∈ trimHyphens (collapseLoop
        ((applyReplacements replacements n).map goMapRune)), isClass c = true := by
      intro c hc
      have h1 := mem_collapseLoop (mem_trimHyphens hc)
      obtain ⟨orig, _, horig⟩ := List.mem_map.mp h1
      rw [← horig]
      exact isClass_goMapRune orig
    have hnoDD : containsDD (trimHyphens (collapseLoop
        ((applyReplacements replacements n).map goMapRune))) = false :=
      noDD_trimHyphens (containsDD_collapseLoop _)
    have hhead45 := trimHyphens_headD_ne hy0
    have hlast45 := trimHyphens_getLastD_ne hy0
    have hheadA : isLowerAlnum ((trimHyphens (collapseLoop
        ((applyReplacements replacements n).map goMapRune))).headD 0) = true :=
      isLowerAlnum_of_class_ne _ (hclass _ (headD_mem hy0)) hhead45
    have hlastA : isLowerAlnum ((trimHyphens (collapseLoop
        ((applyReplacements replacements n).map goMapRune))).getLastD 0) = true :=
      isLowerAlnum_of_class_ne _ (hclass _ (getLastD_mem hy0)) hlast45
    have heq : cleanName n = trimHyphens (collapseLoop
        ((applyReplacements replacements n).map goMapRune)) := by
      unfold cleanName
      exact boundaryFix_of_good hy0 (isAlphanumeric_of_lowerAlnum _ hheadA)
        (isAlphanumeric_of_lowerAlnum _ hlastA)
    rw [heq]
    exact ⟨hy0, hclass, hnoDD, hheadA, hlastA⟩

/-! ## Analysis of the truncation step -/

theorem isClass_of_lowerAlnum (c : Nat) (h : isLowerAlnum c = true) : isClass c = true := by
  simp only [isLowerAlnum, decide_eq_true_eq] at h
  simp only [isClass, decide_eq_true_eq]
  omega

/-- Go's truncating division agrees with the well-founded Nat formula: for
`n ≥ 2` parts, `(63 - (n-1)) tdiv n` is `(64-n)/n`, which is `0` whenever the
numerator is not positive. -/
theorem truncate_targetLen (n : Nat) (h2 : 2 ≤ n) :
    Int.tdiv ((63 : Int) - ((n : Int) - 1)) (n : Int) = (((64 - n) / n : Nat) : Int) := by
  by_cases h : n ≤ 64
  · have e1 : (63 : Int) - ((n : Int) - 1) = ((64 - n : Nat) : Int) := by omega
    rw [e1]
    rfl
  · have e1 : (63 : Int) - ((n : Int) - 1) = -(((n - 64 : Nat) : Int)) := by omega
    rw [e1, Int.neg_tdiv,
      show Int.tdiv ((n - 64 : Nat) : Int) ((n : Nat) : Int) = (((n - 64) / n : Nat) : Int)
        from rfl,
      Nat.div_eq_of_lt (by omega), show (64 - n : Nat) = 0 by omega, Nat.zero_div]
    rfl

theorem truncateParts_eq (parts : List (List Nat)) (hne : parts ≠ [])
    (h2 : 2 ≤ parts.length) :
    truncateParts parts MaxDNSLabelLength =
      if (64 - parts.length) / parts.length = 0 then
        (parts.headD []).take 1 ++ 45 :: (parts.getLastD []).take 1
      else
        joinHyphen (parts.map (fun p =>
          if (64 - parts.length) / parts.length < p.length
          then p.take ((64 - parts.length) / parts.length) else p)) := by
  have hEmpty : parts.isEmpty = false := by
    cases parts with
    | nil => exact absurd rfl hne
    | cons a t => rfl
  simp only [truncateParts, hEmpty, Bool.false_eq_true, if_false, MaxDNSLabelLength,
    Nat.cast_ofNat]
  rw [truncate_targetLen parts.length h2]
  by_cases hdiv : (64 - parts.length) / parts.length = 0
  · rw [if_pos hdiv, hdiv]
    rw [if_pos (by norm_num : (((0 : Nat) : Int) < 1))]
  · rw [if_neg hdiv]
    have hge : 1 ≤ (64 - parts.length) / parts.length := Nat.one_le_iff_ne_zero.mpr hdiv
    rw [if_neg (by push_cast; omega : ¬((((64 - parts.length) / parts.length : Nat) : Int) < 1))]
    simp only [Int.toNat_natCast]

/-- Truncating non-empty all-alphanumeric parts always yields a good label of
length at most 63. -/
theorem truncateParts_ok' (parts : List (List Nat)) (hne : parts ≠ [])
    (h2 : 2 ≤ parts.length) (hp : ∀ p ∈ parts, p ≠ [])
    (hchars : ∀ p ∈ parts, ∀ c ∈ p, isLowerAlnum c = true) :
    RelaxedOK (truncateParts parts MaxDNSLabelLength) ∧
      (truncateParts parts MaxDNSLabelLength).length ≤ 63 := by
  rw [truncateParts_eq parts hne h2]
  by_cases hdiv : (64 - parts.length) / parts.length = 0
  · rw [if_pos hdiv]
    have hh0 : parts.headD [] ≠ [] := hp _ (headD_memG hne [])
    have hl0 : parts.getLastD [] ≠ [] := hp _ (getLastD_memG hne [])
    rw [take_one_of_ne_nil hh0, take_one_of_ne_nil hl0]
    have hhc : isLowerAlnum ((parts.headD []).headD 0) = true :=
      hchars _ (headD_memG hne []) _ (headD_mem hh0)
    have hlc : isLowerAlnum ((parts.getLastD []).headD 0) = true :=
      hchars _ (getLastD_memG hne []) _ (headD_mem hl0)
    refine ⟨⟨by simp, ?_, ?_, ?_⟩, by simp⟩
    · intro c hc
      simp only [List.cons_append, List.nil_append, List.mem_cons] at hc
      rcases hc with rfl | hc2
      · exact isClass_of_lowerAlnum _ hhc
      rcases hc2 with rfl | hc3
      · decide
      rcases hc3 with rfl | hc4
      · exact isClass_of_lowerAlnum _ hlc
      · simp at hc4
    · simpa using hhc
    · simp only [List.cons_append, List.nil_append, List.getLastD_cons]
      exact hlc
  · rw [if_neg hdiv]
    have hge : 1 ≤ (64 - parts.length) / parts.length := Nat.one_le_iff_ne_zero.mpr hdiv
    have h64 : parts.length ≤ 64 := by
      by_contra hgt
      have : 64 - parts.length = 0 := by omega
      rw [this, Nat.zero_div] at hge
      omega
    generalize htn : (64 - parts.length) / parts.length = tn at hge
    have hfne : ∀ q ∈ parts.map (fun p => if tn < p.length then p.take tn else p), q ≠ [] := by
      intro q hq
      obtain ⟨p, hpm, hpq⟩ := List.mem_map.mp hq
      rw [← hpq]
      by_cases hlen : tn < p.length
      · rw [if_pos hlen]
        exact take_ne_nil (hp p hpm) hge
      · rw [if_neg hlen]
        exact hp p hpm
    have hfchars : ∀ q ∈ parts.map (fun p => if tn < p.length then p.take tn else p),
        ∀ c ∈ q, isLowerAlnum c = true := by
      intro q hq c hc
      obtain ⟨p, hpm, hpq⟩ := List.mem_map.mp hq
      rw [← hpq] at hc
      by_cases hlen : tn < p.length
      · rw [if_pos hlen] at hc
        exact hchars p hpm c (mem_take hc)
      · rw [if_neg hlen] at hc
        exact hchars p hpm c hc
    have hmapne : parts.map (fun p => if tn < p.length then p.take tn else p) ≠ [] := by
      cases parts with
      | nil => exact absurd rfl hne
      | cons a t => simp
    refine ⟨⟨joinHyphen_ne_nil hmapne hfne, ?_, ?_, ?_⟩, ?_⟩
    · intro c hc
      rcases joinHyphen_mem hc with rfl | ⟨q, hq, hcq⟩
      · decide
      · exact isClass_of_lowerAlnum _ (hfchars q hq c hcq)
    · cases hps : parts with
      | nil => exact absurd hps hne
      | cons p0 rest =>
        subst hps
        rw [List.map_cons, joinHyphen_headD _ (hfne _ (List.mem_cons_self _ _))]
        have hp0 : p0 ≠ [] := hp p0 (List.mem_cons_self _ _)
        show isLowerAlnum ((if tn < p0.length then p0.take tn else p0).headD 0) = true
        by_cases hlen : tn < p0.length
        · rw [if_pos hlen, take_headD hp0 hge]
          exact hchars p0 (List.mem_cons_self _ _) _ (headD_mem hp0)
        · rw [if_neg hlen]
          exact hchars p0 (List.mem_cons_self _ _) _ (headD_mem hp0)
    · rw [joinHyphen_getLastD hmapne hfne,
        getLastD_map (fun p => if tn < p.length then p.take tn else p) hne [] []]
      have hplm : parts.getLastD [] ∈ parts := getLastD_memG hne []
      have hpl : parts.getLastD [] ≠ [] := hp _ hplm
      have hfpl : (if tn < (parts.getLastD []).length
          then (parts.getLastD []).take tn else parts.getLastD []) ≠ [] := by
        by_cases hlen : tn < (parts.getLastD []).length
        · rw [if_pos hlen]; exact take_ne_nil hpl hge
        · rw [if_neg hlen]; exact hpl
      have hin := getLastD_mem hfpl
      by_cases hlen : tn < (parts.getLastD []).length
      · rw [if_pos hlen] at hin ⊢
        exact hchars _ hplm _ (mem_take hin)
      · rw [if_neg hlen] at hin ⊢
        exact hchars _ hplm _ hin
    · rw [joinHyphen_length]
      have hlenmap : (parts.map (fun p => if tn < p.length then p.take tn else p)).length =
          parts.length := List.length_map _ _
      have hsum : ((parts.map (fun p => if tn < p.length then p.take tn else p)).map
          List.length).sum ≤ parts.length * tn := by
        have := sum_le_length_mul
          ((parts.map (fun p => if tn < p.length then p.take tn else p)).map List.length) tn ?_
        · calc ((parts.map (fun p => if tn < p.length then p.take tn else p)).map
              List.length).sum ≤ ((parts.map (fun p => if tn < p.length then p.take tn
                else p)).map List.length).length * tn := this
            _ = parts.length * tn := by simp
        · intro x hx
          obtain ⟨q, hq, hxq⟩ := List.mem_map.mp hx
          obtain ⟨p, hpm, hpq⟩ := List.mem_map.mp hq
          rw [← hxq, ← hpq]
          by_cases hlen : tn < p.length
          · rw [if_pos hlen]
            simp [List.length_take]
          · rw [if_neg hlen]
            omega
      have htnle : parts.length * tn ≤ 64 - parts.length := by
        rw [← htn, Nat.mul_comm]
        exact Nat.div_mul_le_self _ _
      rw [hlenmap]
      omega

/-! ## Shape of every non-GKE output -/

theorem isEmpty_false_of_ne_nil {s : List Nat} (h : s ≠ []) : s.isEmpty = false := by
  cases s with
  | nil => exact absurd rfl h
  | cons a t => rfl

theorem goMakeDNSFriendly_eq_branch (n : List Nat) (h1 : n.isEmpty = false)
    (h2 : goIsGKE n = false) {r : List Nat}
    (hr : (if MaxDNSLabelLength < (cleanName n).length then
            (if (cleanName n).contains 45 then
              truncateParts (splitOnSep 45 (cleanName n)) MaxDNSLabelLength
            else (cleanName n).take MaxDNSLabelLength)
          else cleanName n) = r)
    (hne : r ≠ []) : goMakeDNSFriendly n = r := by
  unfold goMakeDNSFriendly
  rw [h1, h2]
  simp only [Bool.false_eq_true, if_false]
  rw [hr, isEmpty_false_of_ne_nil hne]
  simp

theorem relaxedOK_xxx : RelaxedOK (runes "x--x") := by
  refine ⟨by decide, by decide, by decide, by decide⟩

/-- Characterization of the server canonicalizer on non-empty, non-GKE input:
the output is non-empty, drawn from `[a-z0-9-]`, starts and ends with a
lower-case alphanumeric rune, and is at most 63 runes long. -/
theorem goMakeDNSFriendly_shape (n : List Nat) (h1 : n ≠ []) (h2 : goIsGKE n = false) :
    RelaxedOK (goMakeDNSFriendly n) ∧ (goMakeDNSFriendly n).length ≤ 63 := by
  have hE : n.isEmpty = false := isEmpty_false_of_ne_nil h1
  have hM : MaxDNSLabelLength = 63 := rfl
  rcases cleanName_cases n with hx | hG
  · have hres : goMakeDNSFriendly n = runes "x--x" := by
      apply goMakeDNSFriendly_eq_branch n hE h2
      · rw [hx]
        decide
      · decide
    rw [hres]
    exact ⟨relaxedOK_xxx, by decide⟩
  · obtain ⟨hgne, hgclass, hgdd, hghead, hglast⟩ := hG
    by_cases hlen : MaxDNSLabelLength < (cleanName n).length
    · by_cases hcont : (cleanName n).contains 45 = true
      · have hparts_ne := splitOnSep_ne_nil 45 (cleanName n)
        have h45mem : (45 : Nat) ∈ cleanName n := by simpa using hcont
        have hparts2 := splitOnSep_two_le h45mem
        have hpne := splitOnSep_parts_ne_nil hgne (ne_45_of_lowerAlnum _ hghead)
          (ne_45_of_lowerAlnum _ hglast) hgdd
        have hpchars : ∀ p ∈ splitOnSep 45 (cleanName n), ∀ c ∈ p,
            isLowerAlnum c = true := by
          intro p hp c hc
          have := splitOnSep_mem hp c hc
          exact isLowerAlnum_of_class_ne _ (hgclass c this.1) this.2
        have hok := truncateParts_ok' (splitOnSep 45 (cleanName n)) hparts_ne hparts2
          hpne hpchars
        have hres : goMakeDNSFriendly n =
            truncateParts (splitOnSep 45 (cleanName n)) MaxDNSLabelLength := by
          apply goMakeDNSFriendly_eq_branch n hE h2
          · rw [if_pos hlen, if_pos hcont]
          · exact hok.1.1
        rw [hres]
        exact hok
      · have hcont' : (cleanName n).contains 45 = false := by
          cases hcc : (cleanName n).contains 45
          · rfl
          · exact absurd hcc hcont
        have h45nm : (45 : Nat) ∉ cleanName n := by simpa using hcont'
        have htne : (cleanName n).take MaxDNSLabelLength ≠ [] :=
          take_ne_nil hgne (by rw [hM]; omega)
        have hres : goMakeDNSFriendly n = (cleanName n).take MaxDNSLabelLength := by
          apply goMakeDNSFriendly_eq_branch n hE h2
          · rw [if_pos hlen, hcont']
            simp
          · exact htne
        rw [hres]
        constructor
        · refine ⟨htne, ?_, ?_, ?_⟩
          · intro c hc
            exact hgclass c (mem_take hc)
          · rw [take_headD hgne (by rw [hM]; omega)]
            exact hghead
          · have hin := getLastD_mem htne
            have hinc := mem_take hin
            exact isLowerAlnum_of_class_ne _ (hgclass _ hinc)
              (fun hc => h45nm (hc ▸ hinc))
        · rw [List.length_take, hM]
          omega
    · have hres : goMakeDNSFriendly n = cleanName n := by
        apply goMakeDNSFriendly_eq_branch n hE h2
        · rw [if_neg hlen]
        · exact hgne
      rw [hres]
      rw [hM] at hlen
      exact ⟨⟨hgne, hgclass, hghead, hglast⟩, by omega⟩

/-! ## The GKE fast path returns its input unchanged -/

theorem goMakeDNSFriendly_gke (n : List Nat) (h : goIsGKE n = true) :
    goMakeDNSFriendly n = n := by
  have hne : n ≠ [] := by
    intro hc
    rw [hc] at h
    exact absurd h (by decide)
  unfold goMakeDNSFriendly
  rw [isEmpty_false_of_ne_nil hne, h]
  simp

theorem fdiv_targetLen (n : Nat) (h2 : 2 ≤ n) :
    specTargetLen n = if n ≤ 64 then (((64 - n) / n : Nat) : Int) else -1 := by
  unfold specTargetLen
  by_cases h : n ≤ 64
  · rw [if_pos h]
    have e1 : (63 : Int) - ((n : Int) - 1) = ((64 - n : Nat) : Int) := by omega
    rw [e1, Int.fdiv_eq_ediv _ (by exact_mod_cast Nat.zero_le n)]
    rfl
  · rw [if_neg h]
    obtain ⟨m, rfl⟩ : ∃ m, n = m + 1 := ⟨n - 1, by omega⟩
    have e1 : (63 : Int) - (((m + 1 : Nat) : Int) - 1) = Int.negSucc (m + 1 - 65) := by
      rw [Int.negSucc_eq]
      push_cast
      omega
    rw [e1, show Int.fdiv (Int.negSucc (m + 1 - 65)) (((m + 1 : Nat)) : Int) =
        Int.negSucc ((m + 1 - 65) / (m + 1)) from rfl,
      Nat.div_eq_of_lt (by omega)]
    rfl

/-- The spec's floor-based truncation formula computes exactly what the
Go helper `truncateParts` computes on the split of a hyphen-containing
string. -/
theorem specTruncation_eq_truncateParts {r : List Nat} (hcont : r.contains 45 = true) :
    specTruncation r = truncateParts (splitOnSep 45 r) MaxDNSLabelLength := by
  have h2 : 2 ≤ (splitOnSep 45 r).length := splitOnSep_two_le (by simpa using hcont)
  rw [truncateParts_eq _ (splitOnSep_ne_nil 45 r) h2]
  unfold specTruncation
  rw [if_pos hcont, fdiv_targetLen _ h2]
  by_cases h64 : (splitOnSep 45 r).length ≤ 64
  · rw [if_pos h64]
    by_cases hdiv : (64 - (splitOnSep 45 r).length) / (splitOnSep 45 r).length = 0
    · rw [if_neg (show ¬(1 ≤ (((64 - (splitOnSep 45 r).length) /
          (splitOnSep 45 r).length : Nat) : Int)) from by rw [hdiv]; norm_num),
        if_pos hdiv]
    · rw [if_pos (show 1 ≤ (((64 - (splitOnSep 45 r).length) /
          (splitOnSep 45 r).length : Nat) : Int) from by
            exact_mod_cast Nat.one_le_iff_ne_zero.mpr hdiv),
        if_neg hdiv]
      simp only [Int.toNat_natCast]
      congr 1
      apply List.map_congr_left
      intro p _
      by_cases hlen : (64 - (splitOnSep 45 r).length) / (splitOnSep 45 r).length < p.length
      · rw [if_pos hlen]
      · rw [if_neg hlen]
        exact List.take_of_length_le (by omega)
  · rw [if_neg h64]
    have hz : (64 - (splitOnSep 45 r).length) / (splitOnSep 45 r).length = 0 := by
      rw [show 64 - (splitOnSep 45 r).length = 0 from by omega, Nat.zero_div]
    rw [if_neg (by norm_num : ¬(1 ≤ (-1 : Int))), if_pos hz]

/-! ## Claim theorems for the canonicalizer -/

/-- C1 (code bug): the two canonicalizer implementations must be
byte-identical on every input, but they diverge: on the single rune
U+212A KELVIN SIGN the server maps the rune to `-` (it lower-cases only
`A`–`Z`) and ends with the degenerate label `"x--x"`, while the client's
`String.prototype.toLowerCase()` turns it into `k` before sanitization and
returns `"k"`. -/
theorem c1_mirror_divergence :
    goMakeDNSFriendly (runes "K") = runes "x--x" ∧
    jsMakeDNSFriendly (runes "K") = runes "k" ∧
    goMakeDNSFriendly (runes "K") ≠ jsMakeDNSFriendly (runes "K") := by
  refine ⟨by decide, by decide, by decide⟩

/-- C2 (counterexample to the claim as stated): the input `"a"` is non-empty
and not GKE-shaped, canonicalizes to itself, and the one-rune result does
not match the strict regex `[a-z0-9][a-z0-9-]*[a-z0-9]`, which requires at
least two runes. -/
theorem c2_counterexample :
    runes "a" ≠ [] ∧ goIsGKE (runes "a") = false ∧
    goMakeDNSFriendly (runes "a") = runes "a" ∧
    matchesStrictDNSLabel (goMakeDNSFriendly (runes "a")) = false := by
  refine ⟨by decide, by decide, by decide, by decide⟩

/-- C2 (amended): for every non-empty input not matching the GKE pattern the
output of the canonicalizer matches the relaxed label regex
`[a-z0-9]([a-z0-9-]*[a-z0-9])?` and is at most 63 runes long; an input
matching the GKE pattern is returned unchanged. -/
theorem c2_canonical_shape (s : List Nat) :
    (s ≠ [] → goIsGKE s = false →
      matchesRelaxedDNSLabel (goMakeDNSFriendly s) = true ∧
        (goMakeDNSFriendly s).length ≤ 63) ∧
    (goIsGKE s = true → goMakeDNSFriendly s = s) := by
  constructor
  · intro h1 h2
    have h := goMakeDNSFriendly_shape s h1 h2
    exact ⟨(matchesRelaxedDNSLabel_iff _).mpr h.1, h.2⟩
  · exact goMakeDNSFriendly_gke s

theorem c2_canonical_shape_witness :
    matchesRelaxedDNSLabel (goMakeDNSFriendly
      (runes "arn:aws:eks:us-west-2:123456789012:cluster/production-cluster")) = true ∧
    (goMakeDNSFriendly
      (runes "arn:aws:eks:us-west-2:123456789012:cluster/production-cluster")).length ≤ 63 :=
  (c2_canonical_shape _).1 (by decide) (by decide)

/-- C3 (code bug): canonicalization is not idempotent.  The input `"."`
cleans to the empty string, so the boundary fixes produce `"x--x"` — an
output with consecutive hyphens, contradicting the function's own
documentation — and a second pass collapses it to `"x-x"`. -/
theorem c3_idempotence_fails :
    goMakeDNSFriendly (runes ".") = runes "x--x" ∧
    goMakeDNSFriendly (goMakeDNSFriendly (runes ".")) = runes "x-x" ∧
    goMakeDNSFriendly (goMakeDNSFriendly (runes ".")) ≠ goMakeDNSFriendly (runes ".") := by
  refine ⟨by decide, by decide, by decide⟩

/-- C4: when the cleaned-up name exceeds 63 runes, the canonicalizer
truncates exactly as the spec describes with the floor-based target length
(`specTruncation`); with no hyphen present the result is exactly 63 runes. -/
theorem c4_truncation (s : List Nat) (h1 : s ≠ []) (h2 : goIsGKE s = false)
    (h3 : 63 < (cleanName s).length) :
    goMakeDNSFriendly s = specTruncation (cleanName s) ∧
    ((cleanName s).contains 45 = false → (goMakeDNSFriendly s).length = 63) := by
  have hE : s.isEmpty = false := isEmpty_false_of_ne_nil h1
  have hM : MaxDNSLabelLength = 63 := rfl
  have hG : GoodCore (cleanName s) := by
    rcases cleanName_cases s with hx | hG
    · rw [hx] at h3
      exact absurd h3 (by decide)
    · exact hG
  obtain ⟨hgne, hgclass, hgdd, hghead, hglast⟩ := hG
  have hlen : MaxDNSLabelLength < (cleanName s).length := by rw [hM]; exact h3
  by_cases hcont : (cleanName s).contains 45 = true
  · have hparts_ne := splitOnSep_ne_nil 45 (cleanName s)
    have h45mem : (45 : Nat) ∈ cleanName s := by simpa using hcont
    have hparts2 := splitOnSep_two_le h45mem
    have hpne := splitOnSep_parts_ne_nil hgne (ne_45_of_lowerAlnum _ hghead)
      (ne_45_of_lowerAlnum _ hglast) hgdd
    have hpchars : ∀ p ∈ splitOnSep 45 (cleanName s), ∀ c ∈ p,
        isLowerAlnum c = true := by
      intro p hp c hc
      have := splitOnSep_mem hp c hc
      exact isLowerAlnum_of_class_ne _ (hgclass c this.1) this.2
    have hok := truncateParts_ok' (splitOnSep 45 (cleanName s)) hparts_ne hparts2
      hpne hpchars
    have hres : goMakeDNSFriendly s =
        truncateParts (splitOnSep 45 (cleanName s)) MaxDNSLabelLength := by
      apply goMakeDNSFriendly_eq_branch s hE h2
      · rw [if_pos hlen, if_pos hcont]
      · exact hok.1.1
    refine ⟨?_, ?_⟩
    · rw [hres, specTruncation_eq_truncateParts hcont]
    · intro hcf
      rw [hcf] at hcont
      exact absurd hcont (by decide)
  · have hcont' : (cleanName s).contains 45 = false := by
      cases hcc : (cleanName s).contains 45
      · rfl
      · exact absurd hcc hcont
    have htne : (cleanName s).take MaxDNSLabelLength ≠ [] :=
      take_ne_nil hgne (by rw [hM]; omega)
    have hres : goMakeDNSFriendly s = (cleanName s).take MaxDNSLabelLength := by
      apply goMakeDNSFriendly_eq_branch s hE h2
      · rw [if_pos hlen, hcont']
        simp
      · exact htne
    refine ⟨?_, fun _ => ?_⟩
    · rw [hres]
      unfold specTruncation
      rw [hcont']
      simp [hM]
    · rw [hres, List.length_take, hM]
      omega

theorem c4_truncation_witness :
    63 < (cleanName (List.replicate 70 97)).length ∧
    goMakeDNSFriendly (List.replicate 70 97) = List.replicate 63 97 ∧
    (goMakeDNSFriendly (List.replicate 70 97)).length = 63 := by
  have h := c4_truncation (List.replicate 70 97) (by decide) (by decide) (by decide)
  refine ⟨by decide, ?_, h.2 (by decide)⟩
  rw [h.1]
  decide

/-- C10: the twelve substring replacements commute — every iteration order
of the (unordered) Go replacement map produces the same string as the
client's fixed textual order, because no replacement text contains any
pattern rune. -/
theorem c10_replacement_order_irrelevant (order : List (Nat × List Nat))
    (h : order.Perm replacements) (s : List Nat) :
    applyReplacements order s = applyReplacements replacements s := by
  have hmem : ∀ p ∈ order, p ∈ replacements := fun p hp => h.mem_iff.mp hp
  have key : ∀ x, applyReplacements order [x] = applyReplacements replacements [x] := by
    intro x
    rw [applyReplacements_singleton order hmem x,
      applyReplacements_singleton replacements (fun p hp => hp) x,
      lookup_perm h replacements_keys_nodup x]
  induction s with
  | nil => rw [applyReplacements_nil_str, applyReplacements_nil_str]
  | cons a t ih =>
    rw [show (a :: t) = [a] ++ t from rfl, applyReplacements_append,
      applyReplacements_append, key a, ih]

theorem c10_witness :
    applyReplacements replacements.reverse (runes "a/b c.d=e*f@g") =
      applyReplacements replacements (runes "a/b c.d=e*f@g") :=
  c10_replacement_order_irrelevant replacements.reverse
    (List.reverse_perm replacements) (runes "a/b c.d=e*f@g")

/-! ### Cache lemmas -/

theorem cache_lookup_setE {V : Type} (k : List Nat) (e : CEntry V) (st : CacheL V) :
    (cacheSetE k e st).lookup k = some e := by
  unfold cacheSetE
  by_cases hpres : st.any (fun en => en.1 == k) = true
  · rw [if_pos hpres]
    induction st with
    | nil => simp at hpres
    | cons en rest ih =>
      obtain ⟨a, b⟩ := en
      by_cases ha : a = k
      · subst ha
        simp only [List.map_cons]
        rw [if_pos (by simp : ((a, b).1 == a) = true)]
        simp [List.lookup]
      · have hrest : rest.any (fun en => en.1 == k) = true := by
          simp only [List.any_cons, Bool.or_eq_true_iff] at hpres
          rcases hpres with h | h
          · exact absurd (by simpa using h) ha
          · exact h
        simp only [List.map_cons, show ((a, b).1 == k) = false from by simpa using ha,
          Bool.false_eq_true, if_false]
        rw [List.lookup, show (k == a) = false from by
          simp only [beq_eq_false_iff_ne, ne_eq]; exact fun h => ha h.symm]
        exact ih hrest
  · rw [if_neg hpres]
    induction st with
    | nil => simp [List.lookup]
    | cons en rest ih =>
      obtain ⟨a, b⟩ := en
      have ha : a ≠ k := by
        intro hc
        subst hc
        simp [List.any_cons] at hpres
      have hrest : ¬rest.any (fun en => en.1 == k) = true := by
        intro hc
        simp [List.any_cons, hc] at hpres
      rw [List.cons_append, List.lookup, show (k == a) = false from by
        simp only [beq_eq_false_iff_ne, ne_eq]; exact fun h => ha h.symm]
      exact ih hrest

theorem cache_setE_key_entries {V : Type} (k : List Nat) (e : CEntry V) (st : CacheL V) :
    ∀ en ∈ cacheSetE k e st, en.1 = k → en = (k, e) := by
  unfold cacheSetE
  by_cases hpres : st.any (fun en => en.1 == k) = true
  · rw [if_pos hpres]
    intro en hen hk
    obtain ⟨en0, _, heq⟩ := List.mem_map.mp hen
    by_cases h0 : en0.1 = k
    · rw [show (en0.1 == k) = true from by simpa using h0, if_pos rfl] at heq
      exact heq.symm
    · rw [show (en0.1 == k) = false from by simpa using h0] at heq
      simp only [Bool.false_eq_true, if_false] at heq
      exact absurd (heq ▸ hk) h0
  · rw [if_neg hpres]
    intro en hen hk
    rcases List.mem_append.mp hen with h | h
    · exfalso
      apply hpres
      exact List.any_eq_true.mpr ⟨en, h, by simpa using hk⟩
    · simpa using h

theorem cache_any_of_lookup {V : Type} {k : List Nat} {e : CEntry V} {st : CacheL V}
    (h : st.lookup k = some e) : st.any (fun en => en.1 == k) = true := by
  induction st with
  | nil => simp [List.lookup] at h
  | cons en rest ih =>
    obtain ⟨a, b⟩ := en
    by_cases ha : a = k
    · subst ha
      simp [List.any_cons]
    · rw [List.lookup, show (k == a) = false from by
        simp only [beq_eq_false_iff_ne, ne_eq]; exact fun hc => ha hc.symm] at h
      simp only [List.any_cons, Bool.or_eq_true_iff]
      exact Or.inr (ih h)

theorem cache_lookup_map_update {V : Type} {k : List Nat} {e : CEntry V}
    (e' : CEntry V) {st : CacheL V} (h : st.lookup k = some e) :
    (st.map (fun en => if en.1 == k then (k, e') else en)).lookup k = some e' := by
  induction st with
  | nil => simp [List.lookup] at h
  | cons en rest ih =>
    obtain ⟨a, b⟩ := en
    by_cases ha : a = k
    · subst ha
      simp only [List.map_cons]
      rw [if_pos (by simp : ((a, b).1 == a) = true)]
      simp [List.lookup]
    · rw [List.lookup, show (k == a) = false from by
        simp only [beq_eq_false_iff_ne, ne_eq]; exact fun hc => ha hc.symm] at h
      simp only [List.map_cons, show ((a, b).1 == k) = false from by simpa using ha,
        Bool.false_eq_true, if_false]
      rw [List.lookup, show (k == a) = false from by
        simp only [beq_eq_false_iff_ne, ne_eq]; exact fun hc => ha hc.symm]
      exact ih h

theorem cacheGetAll_length_set_of_present {V : Type} (now : Nat) (k : List Nat)
    (e e' : CEntry V) (st : CacheL V)
    (hpres : st.any (fun en => en.1 == k) = true)
    (hall : ∀ en ∈ st, en.1 = k → en.2 = e)
    (hexp : entryExpired e now = entryExpired e' now) :
    (cacheGetAll now (cacheSetE k e' st)).length = (cacheGetAll now st).length := by
  unfold cacheSetE
  rw [if_pos hpres]
  unfold cacheGetAll
  rw [← List.countP_eq_length_filter, ← List.countP_eq_length_filter, List.countP_map]
  apply List.countP_congr
  intro en hen
  by_cases hk : en.1 = k
  · have h2 := hall en hen hk
    simp only [Function.comp_apply]
    rw [show (en.1 == k) = true from by simpa using hk, if_pos rfl]
    show (!entryExpired e' now) = true ↔ (!entryExpired en.2 now) = true
    rw [h2, hexp]
  · simp only [Function.comp_apply]
    rw [show (en.1 == k) = false from by simpa using hk]
    simp

/-! ## Claim theorems for the context store -/

/-- C5: the canonical name is a unique key — a second `AddContext` whose
derived name canonicalizes to an existing entry's name overwrites that entry
in place (last write wins): `GetContexts` returns as many contexts as before
the second call, and looking the name up yields the second context. -/
theorem c5_overwrite (st : CacheL Context) (c1 c2 : Context) (now : Nat)
    (h1 : (AddContext st c1).2.2 = none)
    (h2 : (AddContext (AddContext st c1).1 c2).2.2 = none)
    (hsame : ((AddContext (AddContext st c1).1 c2).2.1).name =
      ((AddContext st c1).2.1).name) :
    (GetContexts now (AddContext (AddContext st c1).1 c2).1).length =
      (GetContexts now (AddContext st c1).1).length ∧
    GetContext now (AddContext (AddContext st c1).1 c2).1
        (((AddContext st c1).2.1).name) =
      .ok ((AddContext (AddContext st c1).1 c2).2.1) := by
  cases hd1 : deriveName c1 with
  | error e =>
    exfalso
    unfold AddContext at h1
    rw [hd1] at h1
    simp at h1
  | ok nm1 =>
    cases hd2 : deriveName c2 with
    | error e =>
      exfalso
      unfold AddContext at h2
      rw [hd2] at h2
      simp at h2
    | ok nm2 =>
      have e1 : AddContext st c1 = (cacheSet (goMakeDNSFriendly nm1)
          { c1 with name := goMakeDNSFriendly nm1 } st,
          { c1 with name := goMakeDNSFriendly nm1 }, none) := by
        unfold AddContext
        rw [hd1]
      have e2 : AddContext (AddContext st c1).1 c2 = (cacheSet (goMakeDNSFriendly nm2)
          { c2 with name := goMakeDNSFriendly nm2 } (AddContext st c1).1,
          { c2 with name := goMakeDNSFriendly nm2 }, none) := by
        unfold AddContext
        rw [hd2]
      rw [e2, e1] at hsame
      simp only [] at hsame
      have hpres : ((cacheSet (goMakeDNSFriendly nm1)
          { c1 with name := goMakeDNSFriendly nm1 } st).any
          (fun en => en.1 == goMakeDNSFriendly nm1)) = true :=
        cache_any_of_lookup (cache_lookup_setE _ _ _)
      constructor
      · rw [e2, e1]
        simp only [GetContexts, List.length_map]
        show (cacheGetAll now (cacheSet (goMakeDNSFriendly nm2)
            { c2 with name := goMakeDNSFriendly nm2 }
            (cacheSet (goMakeDNSFriendly nm1)
              { c1 with name := goMakeDNSFriendly nm1 } st))).length =
          (cacheGetAll now (cacheSet (goMakeDNSFriendly nm1)
            { c1 with name := goMakeDNSFriendly nm1 } st)).length
        unfold cacheSet
        rw [hsame]
        apply cacheGetAll_length_set_of_present now (goMakeDNSFriendly nm1)
          ⟨{ c1 with name := goMakeDNSFriendly nm1 }, none⟩
        · exact hpres
        · intro en hen hk
          have := cache_setE_key_entries (goMakeDNSFriendly nm1)
            ⟨{ c1 with name := goMakeDNSFriendly nm1 }, none⟩ st en hen hk
          rw [this]
        · rfl
      · rw [e2, e1]
        simp only [GetContext, cacheGet, cacheSet]
        rw [hsame]
        rw [cache_lookup_setE]
        rfl

theorem c5_overwrite_witness :
    (GetContexts 0 (AddContext (AddContext [] ⟨runes "test", none⟩).1
        ⟨runes "Test", none⟩).1).length =
      (GetContexts 0 (AddContext [] ⟨runes "test", none⟩).1).length ∧
    GetContext 0 (AddContext (AddContext [] ⟨runes "test", none⟩).1
        ⟨runes "Test", none⟩).1 ((AddContext [] ⟨runes "test", none⟩).2.1).name =
      .ok ((AddContext (AddContext [] ⟨runes "test", none⟩).1 ⟨runes "Test", none⟩).2.1) :=
  c5_overwrite [] ⟨runes "test", none⟩ ⟨runes "Test", none⟩ 0 (by decide) (by decide)
    (by decide)

/-- C6: `AddContext` fails exactly on a context whose `headlamp_info`
extension payload does not decode; it then returns that decode error and
leaves both the store and the context's `Name` untouched; every context
without such a malformed extension is added successfully. -/
theorem c6_add_context_error_handling (st : CacheL Context) (c : Context) :
    ((AddContext st c).2.2 ≠ none ↔ malformedExt c = true) ∧
    (malformedExt c = true → (AddContext st c).1 = st ∧ (AddContext st c).2.1 = c) ∧
    (∀ kc e, c.kubeContext = some kc →
      kc.extensions.lookup "headlamp_info" = some (.malformed e) →
      (AddContext st c).2.2 = some e) ∧
    (malformedExt c = false → (AddContext st c).2.2 = none) := by
  cases hk : c.kubeContext with
  | none =>
    refine ⟨?_, ?_, ?_, ?_⟩
    · simp [AddContext, deriveName, malformedExt, hk]
    · simp [malformedExt, hk]
    · intro kc e hkc _
      simp at hkc
    · intro _
      simp [AddContext, deriveName, hk]
  | some kc =>
    cases hl : kc.extensions.lookup "headlamp_info" with
    | none =>
      refine ⟨?_, ?_, ?_, ?_⟩
      · simp [AddContext, deriveName, malformedExt, hk, hl]
      · simp [malformedExt, hk, hl]
      · intro kc' e hkc hle
        injection hkc with hkc'
        subst hkc'
        rw [hl] at hle
        simp at hle
      · intro _
        simp [AddContext, deriveName, hk, hl]
    | some payload =>
      cases payload with
      | decodable obj =>
        refine ⟨?_, ?_, ?_, ?_⟩
        · simp [AddContext, deriveName, malformedExt, hk, hl]
        · simp [malformedExt, hk, hl]
        · intro kc' e hkc hle
          injection hkc with hkc'
          subst hkc'
          rw [hl] at hle
          simp at hle
        · intro _
          simp [AddContext, deriveName, hk, hl]
      | malformed err =>
        refine ⟨?_, ?_, ?_, ?_⟩
        · simp [AddContext, deriveName, malformedExt, hk, hl]
        · intro _
          exact ⟨by simp [AddContext, deriveName, hk, hl],
            by simp [AddContext, deriveName, hk, hl]⟩
        · intro kc' e hkc hle
          injection hkc with hkc'
          subst hkc'
          rw [hl] at hle
          injection hle with hle'
          injection hle' with hle''
          subst hle''
          simp [AddContext, deriveName, hk, hl]
        · intro hmf
          simp [malformedExt, hk, hl] at hmf

theorem c6_add_context_error_handling_witness :
    malformedExt ⟨runes "x", some ⟨[("headlamp_info", .malformed "bad decode")]⟩⟩ = true ∧
    (AddContext [] ⟨runes "x", some ⟨[("headlamp_info", .malformed "bad decode")]⟩⟩).1
      = [] ∧
    (AddContext [] ⟨runes "x", some ⟨[("headlamp_info", .malformed "bad decode")]⟩⟩).2.1
      = ⟨runes "x", some ⟨[("headlamp_info", .malformed "bad decode")]⟩⟩ ∧
    (AddContext [] ⟨runes "x", some ⟨[("headlamp_info", .malformed "bad decode")]⟩⟩).2.2
      = some "bad decode" := by
  have h := c6_add_context_error_handling []
    ⟨runes "x", some ⟨[("headlamp_info", .malformed "bad decode")]⟩⟩
  have hm : malformedExt
      ⟨runes "x", some ⟨[("headlamp_info", .malformed "bad decode")]⟩⟩ = true := by decide
  exact ⟨hm, (h.2.1 hm).1, (h.2.1 hm).2, h.2.2.1 _ "bad decode" rfl (by decide)⟩

/-- C7: TTL semantics of the store.  After `AddContextWithKeyAndTTL` at
instant `t0` with duration `d`, `GetContext` succeeds strictly before
`t0 + d` and fails `NotFound` strictly after it, the entry's key is absent
from the enumeration underlying `GetContexts` after expiry even though
nothing is physically removed, `UpdateTTL` issued at `t1 ≤ t0 + d` resets
the expiry to `t1 + d'`, and `UpdateTTL` on an absent key fails
`NotFound`. -/
theorem c7_ttl_semantics (st : CacheL Context) (c : Context) (k : List Nat)
    (d t0 : Nat) :
    (∀ t, t < t0 + d →
      GetContext t (AddContextWithKeyAndTTL t0 st c k d).1 k =
        .ok (AddContextWithKeyAndTTL t0 st c k d).2) ∧
    (∀ t, t0 + d < t →
      GetContext t (AddContextWithKeyAndTTL t0 st c k d).1 k = .error "NotFound") ∧
    (∀ t, t0 + d < t →
      ∀ en ∈ cacheGetAll t (AddContextWithKeyAndTTL t0 st c k d).1, en.1 ≠ k) ∧
    (∀ t1 d', t1 ≤ t0 + d → ∃ st2,
      UpdateTTL t1 (AddContextWithKeyAndTTL t0 st c k d).1 k d' = .ok st2 ∧
      ∀ t2, t2 < t1 + d' →
        GetContext t2 st2 k = .ok (AddContextWithKeyAndTTL t0 st c k d).2) ∧
    (∀ (st0 : CacheL Context) (k0 : List Nat) (t d0 : Nat), st0.lookup k0 = none →
      UpdateTTL t st0 k0 d0 = .error "NotFound") := by
  have hset : ((AddContextWithKeyAndTTL t0 st c k d).1).lookup k =
      some ⟨{ c with name := goMakeDNSFriendly c.name }, some (t0 + d)⟩ := by
    unfold AddContextWithKeyAndTTL cacheSetWithTTL
    exact cache_lookup_setE _ _ _
  refine ⟨?_, ?_, ?_, ?_, ?_⟩
  · intro t ht
    have hexp : entryExpired (⟨{ c with name := goMakeDNSFriendly c.name },
        some (t0 + d)⟩ : CEntry Context) t = false := by
      unfold entryExpired
      simp only [decide_eq_false_iff_not]
      omega
    unfold GetContext cacheGet
    simp only [hset, hexp, Bool.false_eq_true, if_false]
    rfl
  · intro t ht
    have hexp : entryExpired (⟨{ c with name := goMakeDNSFriendly c.name },
        some (t0 + d)⟩ : CEntry Context) t = true := by
      unfold entryExpired
      simp only [decide_eq_true_eq]
      omega
    unfold GetContext cacheGet
    simp only [hset, hexp, if_true]
  · intro t ht en hen hk
    subst hk
    unfold AddContextWithKeyAndTTL cacheSetWithTTL cacheGetAll at hen
    have hmem := List.mem_filter.mp hen
    have hval := cache_setE_key_entries en.1
      ⟨{ c with name := goMakeDNSFriendly c.name }, some (t0 + d)⟩ st en hmem.1 rfl
    have hexp : entryExpired en.2 t = true := by
      rw [show en.2 = ⟨{ c with name := goMakeDNSFriendly c.name }, some (t0 + d)⟩ from
        congrArg Prod.snd hval]
      unfold entryExpired
      simp only [decide_eq_true_eq]
      omega
    have h2 := hmem.2
    rw [hexp] at h2
    simp at h2
  · intro t1 d' ht1
    have hexp : entryExpired (⟨{ c with name := goMakeDNSFriendly c.name },
        some (t0 + d)⟩ : CEntry Context) t1 = false := by
      unfold entryExpired
      simp only [decide_eq_false_iff_not]
      omega
    refine ⟨(AddContextWithKeyAndTTL t0 st c k d).1.map (fun en =>
      if en.1 == k then (k, ⟨{ c with name := goMakeDNSFriendly c.name },
        some (t1 + d')⟩) else en), ?_, ?_⟩
    · unfold UpdateTTL cacheUpdateTTL
      simp only [hset, hexp, Bool.false_eq_true, if_false]
    · intro t2 ht2
      have hexp2 : entryExpired (⟨{ c with name := goMakeDNSFriendly c.name },
          some (t1 + d')⟩ : CEntry Context) t2 = false := by
        unfold entryExpired
        simp only [decide_eq_false_iff_not]
        omega
      unfold GetContext cacheGet
      simp only [cache_lookup_map_update _ hset, hexp2, Bool.false_eq_true, if_false]
      rfl
  · intro st0 k0 t d0 h0
    unfold UpdateTTL cacheUpdateTTL
    rw [h0]

theorem c7_ttl_semantics_witness :
    GetContext 1 (AddContextWithKeyAndTTL 0 [] ⟨runes "testwithttl", none⟩
        (runes "testwithttl") 2).1 (runes "testwithttl") =
      .ok (AddContextWithKeyAndTTL 0 [] ⟨runes "testwithttl", none⟩
        (runes "testwithttl") 2).2 ∧
    GetContext 3 (AddContextWithKeyAndTTL 0 [] ⟨runes "testwithttl", none⟩
        (runes "testwithttl") 2).1 (runes "testwithttl") = .error "NotFound" ∧
    UpdateTTL 5 ([] : CacheL Context) (runes "absent") 2 = .error "NotFound" := by
  have h := c7_ttl_semantics [] ⟨runes "testwithttl", none⟩ (runes "testwithttl") 2 0
  exact ⟨h.1 1 (by omega), h.2.1 3 (by omega), h.2.2.2.2 [] (runes "absent") 5 2 rfl⟩

/-- C8: with no stored record matching the cluster name,
`findAndReplaceKubeconfig` with `create = false` rejects with exactly
`"No context found matching the cluster name"` and, being a rejection,
yields no new registry; with `create = true` the same situation appends the
new blob, growing the registry by exactly one. -/
theorem c8_find_and_replace_no_match (reg : List KubeBlob) (n : String)
    (nb : KubeBlob) (h : ∀ b ∈ reg, blobMatches n b = false) :
    findAndReplaceKubeconfig n nb false reg =
      .error "No context found matching the cluster name" ∧
    findAndReplaceKubeconfig n nb true reg =
      .ok (storeStatelessClusterKubeconfig reg nb) ∧
    (getStatelessClusterKubeConfigs (storeStatelessClusterKubeconfig reg nb)).length =
      (getStatelessClusterKubeConfigs reg).length + 1 := by
  have hidx : reg.findIdx? (blobMatches n) = none := by
    rw [List.findIdx?_eq_none_iff]
    exact h
  refine ⟨?_, ?_, ?_⟩
  · unfold findAndReplaceKubeconfig
    rw [hidx]
    rfl
  · unfold findAndReplaceKubeconfig storeStatelessClusterKubeconfig
    rw [hidx]
    rfl
  · unfold getStatelessClusterKubeConfigs storeStatelessClusterKubeconfig
    simp

theorem c8_find_and_replace_no_match_witness :
    findAndReplaceKubeconfig "second-cluster" ⟨["second-cluster"], "cfg2"⟩ false
      [⟨["first-cluster"], "cfg1"⟩] =
      .error "No context found matching the cluster name" ∧
    findAndReplaceKubeconfig "second-cluster" ⟨["second-cluster"], "cfg2"⟩ true
      [⟨["first-cluster"], "cfg1"⟩] =
      .ok [⟨["first-cluster"], "cfg1"⟩, ⟨["second-cluster"], "cfg2"⟩] ∧
    (getStatelessClusterKubeConfigs (storeStatelessClusterKubeconfig
      [⟨["first-cluster"], "cfg1"⟩] ⟨["second-cluster"], "cfg2"⟩)).length = 2 := by
  have h := c8_find_and_replace_no_match [⟨["first-cluster"], "cfg1"⟩] "second-cluster"
    ⟨["second-cluster"], "cfg2"⟩ (by decide)
  exact ⟨h.1, h.2.1, h.2.2⟩

/-- C9: `findAndReplaceKubeconfig` replaces only the first matching record,
at its storage position: the registry keeps its length and every
non-targeted position holds a byte-identical blob. -/
theorem c9_find_and_replace_frame (reg : List KubeBlob) (i : Nat) (n : String)
    (nb : KubeBlob) (create : Bool)
    (h : reg.findIdx? (blobMatches n) = some i) :
    findAndReplaceKubeconfig n nb create reg = .ok (reg.set i nb) ∧
    (reg.set i nb).length = reg.length ∧
    (∀ j, j ≠ i → (reg.set i nb)[j]? = reg[j]?) := by
  refine ⟨?_, List.length_set _ _ _, ?_⟩
  · unfold findAndReplaceKubeconfig
    rw [h]
  · intro j hj
    exact List.getElem?_set_ne (fun hc => hj hc.symm)

theorem c9_find_and_replace_frame_witness :
    findAndReplaceKubeconfig "second-cluster" ⟨["second-cluster"], "cfg2new"⟩ false
      [⟨["first-cluster"], "cfg1"⟩, ⟨["second-cluster"], "cfg2"⟩] =
      .ok [⟨["first-cluster"], "cfg1"⟩, ⟨["second-cluster"], "cfg2new"⟩] ∧
    ([⟨["first-cluster"], "cfg1"⟩, ⟨["second-cluster"], "cfg2new"⟩] :
      List KubeBlob).length = 2 ∧
    ([(⟨["first-cluster"], "cfg1"⟩ : KubeBlob), ⟨["second-cluster"], "cfg2"⟩].set 1
      ⟨["second-cluster"], "cfg2new"⟩)[0]? = some ⟨["first-cluster"], "cfg1"⟩ := by
  have h := c9_find_and_replace_frame
    [⟨["first-cluster"], "cfg1"⟩, ⟨["second-cluster"], "cfg2"⟩] 1 "second-cluster"
    ⟨["second-cluster"], "cfg2new"⟩ false (by decide)
  exact ⟨h.1, h.2.1, (h.2.2 0 (by decide)).trans (by decide)⟩
